import Mathlib

/-!
# Verification of the vue-tsgo backend bridge

A shallow embedding of the bridge code of the `vue-tsgo` repository:
the script-region position mapper (`script-extractor.ts`, the providers in
`vue-providers` and the old extension entry), the virtual-URI mapping
(`virtual-docs/manager.ts`, `virtual-docs/mapping.ts`), the LSP transport
framer and request correlator (`language-server/tsgo-backend.ts`) and the
definition-result mapping middleware (`language-client/middleware.ts`).

Texts are modelled as `List Char` (JavaScript strings); byte counts are
modelled by an explicit UTF-8 size function where the source uses
`Buffer.byteLength`.
-/

namespace VueTsgo

/-- Push a character onto the first piece of a split result; on an empty
split result it opens a fresh piece.  Mirrors how `String.prototype.split`
accumulates the characters between separators. -/
def consHead (c : Char) : List (List Char) → List (List Char)
  | [] => [[c]]
  | l :: ls => (c :: l) :: ls

/-- `text.split(/\r?\n/)` from `positionToOffset` (script-extractor.ts line 79
and the old extension entry): a separator is either the two-character
sequence `"\r\n"` or a lone `"\n"`; a lone `"\r"` is ordinary text. -/
def splitRN : List Char → List (List Char)
  | [] => [[]]
  | [a] => if a = '\n' then [[], []] else [[a]]
  | a :: b :: rest =>
    if a = '\r' ∧ b = '\n' then [] :: splitRN rest
    else if a = '\n' then [] :: splitRN (b :: rest)
    else consHead a (splitRN (b :: rest))

/-- Splitting on `'\n'` alone; used as the carriage-return-free reading of
`splitRN`. -/
def splitNl : List Char → List (List Char)
  | [] => [[]]
  | a :: rest => if a = '\n' then [] :: splitNl rest else consHead a (splitNl rest)

/-- Number of `'\n'` characters in a text. -/
def countNl (l : List Char) : Nat := l.count '\n'

/-- The maximal suffix of `l` that follows the last `'\n'` of `l`
(all of `l` when `l` has no `'\n'`). -/
def tailAfterNl : List Char → List Char
  | [] => []
  | c :: rest =>
    if countNl rest = 0 then (if c = '\n' then rest else c :: rest)
    else tailAfterNl rest

/-- The scanning loop of `getScriptPosition` / `indexToLineChar`: walk the
characters, `i` being the index of the next character, counting lines and
remembering `lastLineStart` (the index just after the last `'\n'` seen). -/
def scanNl : List Char → Nat → Nat → Nat → Nat × Nat
  | [], _, line, lls => (line, lls)
  | c :: rest, i, line, lls =>
    if c = '\n' then scanNl rest (i + 1) (line + 1) (i + 1)
    else scanNl rest (i + 1) line lls

/-- `getScriptPosition` (script-extractor.ts lines 51-69) and
`indexToLineChar` (old extension entry): the zero-based line of byte `index`
inside `text` and the column measured from the last line start, obtained by
scanning the first `index` characters for `'\n'`. -/
def indexToLineChar (text : List Char) (index : Nat) : Nat × Nat :=
  let p := scanNl (text.take index) 0 0 0
  (p.1, index - p.2)

/-- Sum of `(lines[i]?.length ?? 0) + 1` over `i < n`, the loop of
`positionToOffset`: a missing line contributes `0 + 1`. -/
def sumLines : List (List Char) → Nat → Nat
  | _, 0 => 0
  | [], n + 1 => n + 1
  | l :: ls, n + 1 => l.length + 1 + sumLines ls n

/-- `ScriptExtractor.positionToOffset` (script-extractor.ts lines 74-88):
split the text on `/\r?\n/`, add one for each newline, then add the
character column. -/
def positionToOffset (text : List Char) (line char : Nat) : Nat :=
  sumLines (splitRN text) line + char

/-- The synthetic-position computation shared by `convertVuePositionToTs`
(vue-providers lines 201-210) and the old extension's hover path: split the
region prefix of length `relOffset` on `/\r?\n/`; the synthetic line is the
number of pieces minus one and the synthetic character is the length of the
last piece. -/
def relOffsetToSynPos (scriptText : List Char) (relOffset : Nat) : Nat × Nat :=
  let lines := splitRN (scriptText.take relOffset)
  (lines.length - 1, (lines.getLastD []).length)

/-- `VueLanguageProviders.convertVuePositionToTs` (vue-providers lines
180-211), with the extracted region given by its bounds: the region of a
composite text is `scriptInfo = extractScriptSetup content`, whose `code` is
`content.slice(start, end)`; the conversion computes the composite offset,
rejects offsets outside `[start, end]` (both ends inclusive) and otherwise
produces the synthetic position of the relative offset. -/
def convertVuePositionToTs (content : List Char) (rStart rEnd : Nat)
    (line char : Nat) : Option (Nat × Nat) :=
  let offset := positionToOffset content line char
  if offset < rStart then none
  else if rEnd < offset then none
  else some (relOffsetToSynPos ((content.drop rStart).take (rEnd - rStart)) (offset - rStart))

/-- The `mapPos` closure of `mapVirtualToVueRange` (old extension entry lines
343-347): a synthetic position maps to composite line
`scriptStartLine + line`, and the column is shifted by `scriptStartChar`
exactly when the synthetic line is `0`. -/
def mapPos (scriptStartLine scriptStartChar : Nat) (p : Nat × Nat) : Nat × Nat :=
  (scriptStartLine + p.1, if p.1 = 0 then scriptStartChar + p.2 else p.2)

/-- Specification helper: the line/column of the prefix of length `k`,
expressed through `countNl` and `tailAfterNl`. -/
def prefixLC (l : List Char) (k : Nat) : Nat × Nat :=
  (countNl (l.take k), (tailAfterNl (l.take k)).length)

/-- A text with no carriage returns. -/
def noCR (l : List Char) : Prop := ∀ c ∈ l, c ≠ '\r'

instance (l : List Char) : Decidable (noCR l) := by
  unfold noCR; infer_instance

theorem consHead_ne_nil (c : Char) (ls : List (List Char)) : consHead c ls ≠ [] := by
  cases ls <;> simp [consHead]

theorem length_consHead (c : Char) {ls : List (List Char)} (h : ls ≠ []) :
    (consHead c ls).length = ls.length := by
  cases ls with
  | nil => exact absurd rfl h
  | cons l ls => simp [consHead]

theorem splitNl_ne_nil (l : List Char) : splitNl l ≠ [] := by
  induction l with
  | nil => simp [splitNl]
  | cons c rest ih =>
    by_cases hc : c = '\n'
    · simp [splitNl, hc]
    · simpa [splitNl, hc] using consHead_ne_nil c (splitNl rest)

theorem countNl_nil : countNl [] = 0 := rfl

theorem countNl_cons (c : Char) (rest : List Char) :
    countNl (c :: rest) = (if c = '\n' then 1 else 0) + countNl rest := by
  simp [countNl, List.count_cons]
  by_cases hc : c = '\n' <;> simp [hc] <;> omega

theorem countNl_append (a b : List Char) :
    countNl (a ++ b) = countNl a + countNl b := by
  simp [countNl, List.count_append]

theorem length_splitNl (l : List Char) : (splitNl l).length = countNl l + 1 := by
  induction l with
  | nil => simp [splitNl, countNl]
  | cons c rest ih =>
    by_cases hc : c = '\n'
    · simp [splitNl, hc, countNl_cons, ih]; omega
    · rw [splitNl]
      simp only [hc, if_false]
      rw [length_consHead c (splitNl_ne_nil rest), ih, countNl_cons]
      simp [hc]

theorem tailAfterNl_of_no_nl {l : List Char} (h : countNl l = 0) : tailAfterNl l = l := by
  cases l with
  | nil => rfl
  | cons c rest =>
    rw [countNl_cons] at h
    have hc : c ≠ '\n' := by intro hc; simp [hc] at h
    have hr : countNl rest = 0 := by omega
    simp [tailAfterNl, hr, hc]

theorem tailAfterNl_length_le (l : List Char) : (tailAfterNl l).length ≤ l.length := by
  induction l with
  | nil => simp [tailAfterNl]
  | cons c rest ih =>
    by_cases hr : countNl rest = 0
    · by_cases hc : c = '\n' <;> simp [tailAfterNl, hr, hc]
    · simp only [tailAfterNl, hr, if_false]
      exact Nat.le_trans ih (by simp)

theorem tailAfterNl_append (a b : List Char) :
    tailAfterNl (a ++ b) =
      if countNl b = 0 then tailAfterNl a ++ b else tailAfterNl b := by
  induction a with
  | nil =>
    by_cases hb : countNl b = 0
    · simp [hb, tailAfterNl, tailAfterNl_of_no_nl hb]
    · simp [hb]
  | cons c a ih =>
    have hcons : tailAfterNl (c :: (a ++ b)) =
        if countNl (a ++ b) = 0 then (if c = '\n' then a ++ b else c :: (a ++ b))
        else tailAfterNl (a ++ b) := rfl
    by_cases hab : countNl (a ++ b) = 0
    · have ha : countNl a = 0 := by rw [countNl_append] at hab; omega
      have hb : countNl b = 0 := by rw [countNl_append] at hab; omega
      simp only [List.cons_append, hcons, hab, if_true, hb]
      by_cases hc : c = '\n' <;> simp [tailAfterNl, ha, hc]
    · simp only [List.cons_append, hcons, hab, if_false, ih]
      by_cases hb : countNl b = 0
      · have ha : countNl a ≠ 0 := by rw [countNl_append] at hab; omega
        simp only [hb, if_true]
        have : tailAfterNl (c :: a) = tailAfterNl a := by simp [tailAfterNl, ha]
        rw [this]
      · simp [hb]

theorem scanNl_spec (l : List Char) : ∀ i line lls, scanNl l i line lls =
    (line + countNl l,
     if countNl l = 0 then lls else i + (l.length - (tailAfterNl l).length)) := by
  induction l with
  | nil => intro i line lls; simp [scanNl, countNl]
  | cons c rest ih =>
    intro i line lls
    have htl := tailAfterNl_length_le rest
    by_cases hc : c = '\n'
    · rw [scanNl, if_pos hc, ih, countNl_cons, if_pos hc]
      have hcount : ¬ (1 + countNl rest = 0) := by omega
      rw [if_neg hcount]
      by_cases hr : countNl rest = 0
      · have htn : tailAfterNl (c :: rest) = rest := by simp [tailAfterNl, hr, hc]
        simp only [hr, if_true, htn, List.length_cons, Prod.mk.injEq]
        exact ⟨by first | trivial | omega, by first | trivial | omega⟩
      · have htn : tailAfterNl (c :: rest) = tailAfterNl rest := by
          simp [tailAfterNl, hr]
        simp only [hr, if_false, htn, List.length_cons, Prod.mk.injEq]
        exact ⟨by first | trivial | omega, by first | trivial | omega⟩
    · rw [scanNl, if_neg hc, ih, countNl_cons, if_neg hc]
      by_cases hr : countNl rest = 0
      · simp [hr]
      · have htn : tailAfterNl (c :: rest) = tailAfterNl rest := by
          simp [tailAfterNl, hr]
        simp only [Nat.zero_add, hr, if_false, htn, List.length_cons, Prod.mk.injEq]
        exact ⟨by first | trivial | omega, by first | trivial | omega⟩

theorem getLastD_irrel {α : Type} : ∀ {l : List α}, l ≠ [] → ∀ d d' : α,
    l.getLastD d = l.getLastD d'
  | [], h, _, _ => absurd rfl h
  | [a], _, _, _ => rfl
  | _ :: b :: l, _, d, d' => getLastD_irrel (l := b :: l) (by simp) d d'

theorem splitNl_cons_nl (rest : List Char) : splitNl ('\n' :: rest) = [] :: splitNl rest := by
  simp [splitNl]

theorem splitNl_cons_not_nl {c : Char} (hc : c ≠ '\n') (rest : List Char) :
    splitNl (c :: rest) = consHead c (splitNl rest) := by
  simp [splitNl, hc]

theorem getLastD_splitNl (l : List Char) : (splitNl l).getLastD [] = tailAfterNl l := by
  induction l with
  | nil => simp [splitNl, tailAfterNl]
  | cons c rest ih =>
    by_cases hc : c = '\n'
    · subst hc
      rw [splitNl_cons_nl, List.getLastD_cons,
        getLastD_irrel (splitNl_ne_nil rest) [] ([] : List Char), ih]
      by_cases hr : countNl rest = 0
      · simp [tailAfterNl, hr, tailAfterNl_of_no_nl hr]
      · simp [tailAfterNl, hr]
    · rw [splitNl_cons_not_nl hc]
      cases hs : splitNl rest with
      | nil => exact absurd hs (splitNl_ne_nil rest)
      | cons l1 ls =>
        cases ls with
        | nil =>
          have hr : countNl rest = 0 := by
            have := length_splitNl rest
            rw [hs] at this
            simpa using this.symm
          have hl1 : l1 = rest := by
            have := tailAfterNl_of_no_nl hr
            rw [← ih, hs] at this
            simpa using this
          simp [consHead, tailAfterNl, hr, hc, hl1]
        | cons l2 ls2 =>
          have hr : countNl rest ≠ 0 := by
            have := length_splitNl rest
            rw [hs] at this
            simp at this
            omega
          have htn : tailAfterNl (c :: rest) = tailAfterNl rest := by
            simp [tailAfterNl, hr]
          rw [htn, ← ih, hs]
          simp [consHead, List.getLastD_cons]

theorem take_head_splitNl : ∀ (text : List Char) (char : Nat),
    char ≤ ((splitNl text).getD 0 []).length →
    countNl (text.take char) = 0 ∧ (text.take char).length = char := by
  intro text
  induction text with
  | nil =>
    intro char h
    simp [splitNl] at h
    subst h
    simp [countNl]
  | cons c rest ih =>
    intro char h
    by_cases hc : c = '\n'
    · subst hc
      rw [splitNl_cons_nl] at h
      simp at h
      subst h
      simp [countNl]
    · rw [splitNl_cons_not_nl hc] at h
      cases hs : splitNl rest with
      | nil => exact absurd hs (splitNl_ne_nil rest)
      | cons l1 ls =>
        rw [hs] at h
        simp [consHead] at h
        cases char with
        | zero => simp [countNl]
        | succ k =>
          have hk : k ≤ ((splitNl rest).getD 0 []).length := by
            rw [hs]; simpa using h
          obtain ⟨h1, h2⟩ := ih k hk
          refine ⟨?_, ?_⟩
          · simp [List.take_succ_cons, countNl_cons, hc, h1]
          · simp [List.take_succ_cons, h2]

theorem splitRN_eq_splitNl : ∀ (l : List Char), noCR l → splitRN l = splitNl l
  | [], _ => rfl
  | [a], h => by
    have ha : a ≠ '\r' := h a (by simp)
    by_cases hn : a = '\n' <;> simp [splitRN, splitNl, hn, consHead]
  | a :: b :: rest, h => by
    have ha : a ≠ '\r' := h a (by simp)
    have hrec : noCR (b :: rest) := fun c hc => h c (by simp [hc])
    have hnotrn : ¬ (a = '\r' ∧ b = '\n') := fun hx => ha hx.1
    by_cases hn : a = '\n'
    · rw [splitRN, if_neg hnotrn, if_pos hn, splitNl, if_pos hn,
        splitRN_eq_splitNl (b :: rest) hrec]
    · rw [splitRN, if_neg hnotrn, if_neg hn, splitNl, if_neg hn,
        splitRN_eq_splitNl (b :: rest) hrec]

theorem noCR_take {l : List Char} (h : noCR l) (k : Nat) : noCR (l.take k) :=
  fun c hc => h c (List.mem_of_mem_take hc)

theorem noCR_drop {l : List Char} (h : noCR l) (k : Nat) : noCR (l.drop k) :=
  fun c hc => h c (List.mem_of_mem_drop hc)

theorem indexToLineChar_eq_prefixLC (text : List Char) (idx : Nat)
    (h : idx ≤ text.length) : indexToLineChar text idx = prefixLC text idx := by
  have hlen : (text.take idx).length = idx := by simp [h]
  have htl := tailAfterNl_length_le (text.take idx)
  rw [hlen] at htl
  unfold indexToLineChar prefixLC
  rw [scanNl_spec]
  by_cases h0 : countNl (text.take idx) = 0
  · have ht := tailAfterNl_of_no_nl h0
    rw [if_pos h0, ht, hlen]
    simp
  · rw [if_neg h0]
    simp only [Nat.zero_add, hlen, Prod.mk.injEq]
    exact ⟨by first | trivial | omega, by first | trivial | omega⟩

theorem relOffsetToSynPos_eq_prefixLC (script : List Char) (rel : Nat)
    (h : noCR script) : relOffsetToSynPos script rel = prefixLC script rel := by
  simp only [relOffsetToSynPos, prefixLC]
  rw [splitRN_eq_splitNl _ (noCR_take h rel), length_splitNl, getLastD_splitNl]
  simp

theorem mapPos_prefixLC (text : List Char) (s o e : Nat) (hso : s ≤ o) (hoe : o ≤ e) :
    mapPos (prefixLC text s).1 (prefixLC text s).2
      (prefixLC ((text.drop s).take (e - s)) (o - s)) = prefixLC text o := by
  have hmin : min (o - s) (e - s) = o - s := by omega
  have hb : ((text.drop s).take (e - s)).take (o - s) = (text.drop s).take (o - s) := by
    rw [List.take_take, hmin]
  have hadd : s + (o - s) = o := by omega
  have hsplit : text.take o = text.take s ++ (text.drop s).take (o - s) :=
    calc text.take o = text.take (s + (o - s)) := by rw [hadd]
      _ = text.take s ++ (text.drop s).take (o - s) := List.take_add text s (o - s)
  unfold mapPos prefixLC
  rw [hb, hsplit, tailAfterNl_append]
  have hcnt : countNl (text.take s ++ (text.drop s).take (o - s)) =
      countNl (text.take s) + countNl ((text.drop s).take (o - s)) :=
    countNl_append _ _
  rw [hcnt]
  by_cases h0 : countNl ((text.drop s).take (o - s)) = 0
  · rw [if_pos h0, if_pos h0, tailAfterNl_of_no_nl h0]
    simp
  · rw [if_neg h0, if_neg h0]

theorem sumLines_prefixLC : ∀ (text : List Char) (line char : Nat),
    line < (splitNl text).length →
    char ≤ ((splitNl text).getD line []).length →
    sumLines (splitNl text) line + char ≤ text.length ∧
      prefixLC text (sumLines (splitNl text) line + char) = (line, char) := by
  intro text
  induction text with
  | nil =>
    intro line char hline hchar
    simp [splitNl] at hline
    subst hline
    simp [splitNl] at hchar
    subst hchar
    simp [sumLines, prefixLC, countNl, tailAfterNl]
  | cons c rest ih =>
    intro line char hline hchar
    by_cases hc : c = '\n'
    · subst hc
      rw [splitNl_cons_nl] at hline hchar ⊢
      cases line with
      | zero =>
        simp at hchar
        subst hchar
        simp [sumLines, prefixLC, countNl, tailAfterNl]
      | succ k =>
        simp only [List.length_cons] at hline
        have hline' : k < (splitNl rest).length := by omega
        have hchar' : char ≤ ((splitNl rest).getD k []).length := by
          simpa using hchar
        obtain ⟨hle, hpre⟩ := ih k char hline' hchar'
        unfold prefixLC at hpre
        rw [Prod.mk.injEq] at hpre
        obtain ⟨hp1, hp2⟩ := hpre
        have hsum : sumLines ([] :: splitNl rest) (k + 1) + char =
            1 + (sumLines (splitNl rest) k + char) := by
          simp [sumLines]; omega
        rw [hsum]
        have htake : ('\n' :: rest).take (1 + (sumLines (splitNl rest) k + char)) =
            '\n' :: rest.take (sumLines (splitNl rest) k + char) := by
          rw [Nat.add_comm 1 _]
          simp [List.take_succ_cons]
        constructor
        · simp only [List.length_cons]; omega
        · unfold prefixLC
          rw [htake, Prod.mk.injEq]
          have htn : tailAfterNl ('\n' :: rest.take (sumLines (splitNl rest) k + char)) =
              tailAfterNl (rest.take (sumLines (splitNl rest) k + char)) := by
            by_cases h0 : countNl (rest.take (sumLines (splitNl rest) k + char)) = 0
            · simp [tailAfterNl, h0, tailAfterNl_of_no_nl h0]
            · simp [tailAfterNl, h0]
          rw [countNl_cons, htn, hp1, hp2, if_pos rfl]
          exact ⟨by omega, rfl⟩
    · have hsplit := splitNl_cons_not_nl hc rest
      cases hs : splitNl rest with
      | nil => exact absurd hs (splitNl_ne_nil rest)
      | cons l1 ls =>
        rw [hs] at hsplit
        simp only [consHead] at hsplit
        rw [hsplit] at hline hchar ⊢
        cases line with
        | zero =>
          have hchar0 : char ≤ ((splitNl (c :: rest)).getD 0 []).length := by
            rw [hsplit]
            simpa using hchar
          obtain ⟨h1, h2⟩ := take_head_splitNl (c :: rest) char hchar0
          have hsum : sumLines ((c :: l1) :: ls) 0 + char = char := by
            simp [sumLines]
          rw [hsum]
          constructor
          · have h4 := (List.take_sublist char (c :: rest)).length_le
            omega
          · unfold prefixLC
            rw [h1, tailAfterNl_of_no_nl h1, h2]
        | succ j =>
          simp only [List.length_cons] at hline
          have hline' : j + 1 < (splitNl rest).length := by
            rw [hs]; simp; omega
          have hchar' : char ≤ ((splitNl rest).getD (j + 1) []).length := by
            rw [hs]; simpa using hchar
          obtain ⟨hle, hpre⟩ := ih (j + 1) char hline' hchar'
          rw [hs] at hle hpre
          unfold prefixLC at hpre
          rw [Prod.mk.injEq] at hpre
          obtain ⟨hp1, hp2⟩ := hpre
          have hsum : sumLines ((c :: l1) :: ls) (j + 1) + char =
              1 + (sumLines (l1 :: ls) (j + 1) + char) := by
            cases j <;> simp [sumLines] <;> omega
          rw [hsum]
          have htake : (c :: rest).take (1 + (sumLines (l1 :: ls) (j + 1) + char)) =
              c :: rest.take (sumLines (l1 :: ls) (j + 1) + char) := by
            rw [Nat.add_comm 1 _]
            simp [List.take_succ_cons]
          constructor
          · simp only [List.length_cons]; omega
          · unfold prefixLC
            rw [htake, Prod.mk.injEq]
            have h0 : countNl (rest.take (sumLines (l1 :: ls) (j + 1) + char)) ≠ 0 := by
              rw [hp1]; omega
            have htn : tailAfterNl (c :: rest.take (sumLines (l1 :: ls) (j + 1) + char)) =
                tailAfterNl (rest.take (sumLines (l1 :: ls) (j + 1) + char)) := by
              simp [tailAfterNl, h0]
            rw [countNl_cons, if_neg hc, htn, hp1, hp2]
            simp

/-- The composite fixture of the spec scenario: the extracted region is
`[24, 38]` (after the opening tag, up to `</script>`) with region text
`"\nconst x = 1;\n"`. -/
def scenarioContent : List Char :=
  "<script setup lang=\"ts\">\nconst x = 1;\n</script>".toList

/-- C1, amended: for a carriage-return-free composite document whose region
is `[rStart, rEnd]` (with `code = content.slice(rStart, rEnd)`), and a
composite position `(line, char)` that addresses an actual position of the
text (its line exists and its character does not exceed that line's length)
whose offset lies inside the region (both ends inclusive), converting to a
synthetic position with `convertVuePositionToTs` and mapping back through
the anchor `indexToLineChar content rStart` with the `mapPos` rule of
`mapVirtualToVueRange` reconstructs `(line, char)`. -/
theorem C1_mapping_roundtrip (content : List Char) (rStart rEnd line char : Nat)
    (hcr : noCR content)
    (hline : line < (splitRN content).length)
    (hchar : char ≤ ((splitRN content).getD line []).length)
    (hlo : rStart ≤ positionToOffset content line char)
    (hhi : positionToOffset content line char ≤ rEnd) :
    (convertVuePositionToTs content rStart rEnd line char).map
      (fun p => mapPos (indexToLineChar content rStart).1
        (indexToLineChar content rStart).2 p) = some (line, char) := by
  have hsplit : splitRN content = splitNl content := splitRN_eq_splitNl content hcr
  have hpos : positionToOffset content line char =
      sumLines (splitNl content) line + char := by
    rw [positionToOffset, hsplit]
  obtain ⟨hoLen, hpre⟩ := sumLines_prefixLC content line char
    (by rwa [hsplit] at hline) (by rwa [hsplit] at hchar)
  have hkey : mapPos (indexToLineChar content rStart).1 (indexToLineChar content rStart).2
      (relOffsetToSynPos ((content.drop rStart).take (rEnd - rStart))
        (positionToOffset content line char - rStart)) = (line, char) := by
    rw [indexToLineChar_eq_prefixLC content rStart (by omega),
      relOffsetToSynPos_eq_prefixLC _ _ (noCR_take (noCR_drop hcr rStart) _),
      mapPos_prefixLC content rStart (positionToOffset content line char) rEnd hlo hhi,
      hpos, hpre]
  unfold convertVuePositionToTs
  rw [if_neg (by omega), if_neg (by omega)]
  simp only [Option.map_some']
  rw [hkey]

/-- C1 as stated is false: feeding the composite position `(0, 2)` of the
LF-only text `"a\nb"` (whose offset `2` lies in the region `[0, 3]`, but
whose character overshoots the length of line `0`) through the round trip
yields `(1, 0)`, not `(0, 2)`; and for the CRLF text `"ab\r\ncd"` even the
valid position `(1, 1)` (offset `4` in the region `[0, 6]`) comes back as
`(1, 0)`, because `positionToOffset` counts a `"\r\n"` separator as a
single character. -/
theorem C1_counterexample :
    (positionToOffset "a\nb".toList 0 2 ≤ 3 ∧ 3 ≤ ("a\nb".toList).length ∧
      ¬ ((convertVuePositionToTs "a\nb".toList 0 3 0 2).map
        (fun p => mapPos (indexToLineChar "a\nb".toList 0).1
          (indexToLineChar "a\nb".toList 0).2 p) = some (0, 2))) ∧
    (positionToOffset "ab\r\ncd".toList 1 1 ≤ 6 ∧ 6 ≤ ("ab\r\ncd".toList).length ∧
      1 < (splitRN "ab\r\ncd".toList).length ∧
      1 ≤ ((splitRN "ab\r\ncd".toList).getD 1 []).length ∧
      ¬ ((convertVuePositionToTs "ab\r\ncd".toList 0 6 1 1).map
        (fun p => mapPos (indexToLineChar "ab\r\ncd".toList 0).1
          (indexToLineChar "ab\r\ncd".toList 0).2 p) = some (1, 1))) := by
  decide

/-- Witness for C1 on the spec's own fixture: position `(1, 6)` (the `x`)
round-trips to `(1, 6)`. -/
theorem C1_witness :
    noCR scenarioContent ∧
    1 < (splitRN scenarioContent).length ∧
    6 ≤ ((splitRN scenarioContent).getD 1 []).length ∧
    24 ≤ positionToOffset scenarioContent 1 6 ∧
    positionToOffset scenarioContent 1 6 ≤ 38 ∧
    (convertVuePositionToTs scenarioContent 24 38 1 6).map
      (fun p => mapPos (indexToLineChar scenarioContent 24).1
        (indexToLineChar scenarioContent 24).2 p) = some (1, 6) :=
  ⟨by decide, by decide, by decide, by decide, by decide,
    C1_mapping_roundtrip scenarioContent 24 38 1 6 (by decide)
      (by decide) (by decide) (by decide) (by decide)⟩

/-- `vscode.Uri`, reduced to the two fields the mapping layer reads. -/
structure Uri where
  scheme : List Char
  path : List Char
deriving DecidableEq

/-- `VIRTUAL_SCHEME = "vue-tsgo"` (manager.ts line 4). -/
def vueTsgoScheme : List Char := ['v', 'u', 'e', '-', 't', 's', 'g', 'o']

/-- The scheme of `Uri.file(...)`. -/
def fileScheme : List Char := ['f', 'i', 'l', 'e']

/-- `".setup.ts"`. -/
def setupTsSuffix : List Char := ['.', 's', 'e', 't', 'u', 'p', '.', 't', 's']

/-- `".vue.setup.ts"`. -/
def vueSetupTsSuffix : List Char :=
  ['.', 'v', 'u', 'e', '.', 's', 'e', 't', 'u', 'p', '.', 't', 's']

/-- `".vue"`. -/
def vueSuffix : List Char := ['.', 'v', 'u', 'e']

/-- `VirtualDocumentManager.createVirtualUri` (manager.ts lines 64-67):
append `".setup.ts"` to the path and place it under the `vue-tsgo` scheme. -/
def createVirtualUri (vueUri : Uri) : Uri :=
  { scheme := vueTsgoScheme, path := vueUri.path ++ setupTsSuffix }

/-- `path.replace(/\.setup\.ts$/i, "")`: when the path ends (case
insensitively) in `".setup.ts"`, drop those nine characters. -/
def stripSetupTs (p : List Char) : List Char :=
  if setupTsSuffix <:+ p.map Char.toLower then p.take (p.length - 9) else p

/-- `MappingUtils.mapVirtualToVueFile` (virtual-docs/mapping.ts lines 11-24):
a `vue-tsgo`-scheme URI whose path matches `/\.vue\.setup\.ts$/i` maps to
`Uri.file` of the path with the `".setup.ts"` suffix removed; every other
URI is returned unchanged. -/
def mapVirtualToVueFile (uri : Uri) : Uri :=
  if uri.scheme = vueTsgoScheme ∧ vueSetupTsSuffix <:+ uri.path.map Char.toLower then
    { scheme := fileScheme, path := stripSetupTs uri.path }
  else uri

/-- C9: for a source URI whose path ends in `".vue"`, mapping the synthetic
URI produced by `createVirtualUri` back through `mapVirtualToVueFile`
recovers the original path under the `file` scheme; and any URI that is not
a `vue-tsgo`-scheme path ending (case-insensitively) in `".vue.setup.ts"`
is returned unchanged. -/
theorem C9_virtual_uri_roundtrip :
    (∀ u : Uri, vueSuffix <:+ u.path →
      mapVirtualToVueFile (createVirtualUri u) =
        { scheme := fileScheme, path := u.path }) ∧
    (∀ u : Uri,
      ¬ (u.scheme = vueTsgoScheme ∧ vueSetupTsSuffix <:+ u.path.map Char.toLower) →
      mapVirtualToVueFile u = u) := by
  constructor
  · intro u hvue
    obtain ⟨t, ht⟩ := hvue
    have hmaplower : u.path.map Char.toLower =
        t.map Char.toLower ++ vueSuffix := by
      rw [← ht, List.map_append]
      have : vueSuffix.map Char.toLower = vueSuffix := by decide
      rw [this]
    have hlowsts : setupTsSuffix.map Char.toLower = setupTsSuffix := by decide
    have hvss : vueSetupTsSuffix <:+ (u.path ++ setupTsSuffix).map Char.toLower := by
      rw [List.map_append, hlowsts, hmaplower]
      exact ⟨t.map Char.toLower, by simp [vueSetupTsSuffix, vueSuffix, setupTsSuffix]⟩
    have hsts : setupTsSuffix <:+ (u.path ++ setupTsSuffix).map Char.toLower := by
      rw [List.map_append, hlowsts]
      exact ⟨u.path.map Char.toLower, rfl⟩
    have hstrip : stripSetupTs (u.path ++ setupTsSuffix) = u.path := by
      unfold stripSetupTs
      rw [if_pos hsts]
      have hlen : (u.path ++ setupTsSuffix).length - 9 = u.path.length := by
        simp [setupTsSuffix]
      rw [hlen, List.take_left]
    have hcond : (createVirtualUri u).scheme = vueTsgoScheme ∧
        vueSetupTsSuffix <:+ ((createVirtualUri u).path.map Char.toLower) := ⟨rfl, hvss⟩
    unfold mapVirtualToVueFile
    rw [if_pos hcond]
    have hpath : stripSetupTs (createVirtualUri u).path = u.path := hstrip
    rw [hpath]
  · intro u hno
    unfold mapVirtualToVueFile
    rw [if_neg hno]

/-- Witness for C9 at `file:///src/App.vue` and at a plain TypeScript file
URI which must pass through unchanged. -/
theorem C9_witness :
    (vueSuffix <:+ ("/src/App.vue".toList) ∧
      mapVirtualToVueFile (createVirtualUri
        { scheme := fileScheme, path := "/src/App.vue".toList }) =
        { scheme := fileScheme, path := "/src/App.vue".toList }) ∧
    mapVirtualToVueFile { scheme := fileScheme, path := "/src/util.ts".toList } =
      { scheme := fileScheme, path := "/src/util.ts".toList } :=
  ⟨⟨by decide, C9_virtual_uri_roundtrip.1
      { scheme := fileScheme, path := "/src/App.vue".toList } (by decide)⟩,
    C9_virtual_uri_roundtrip.2
      { scheme := fileScheme, path := "/src/util.ts".toList } (by decide)⟩

/-- A `Position` as carried in LSP ranges. -/
structure Pos where
  line : Nat
  character : Nat
deriving DecidableEq

/-- A range; `stop` stands for the source's `end` field. -/
structure Rng where
  start : Pos
  stop : Pos
deriving DecidableEq

/-- One item of a definition result: a `Location` (`uri` + `range`) or a
`LocationLink` (`targetUri` + `targetRange`); the fields not used by
`mapDefinitionResults`'s output (`originSelectionRange`,
`targetSelectionRange`) are omitted. -/
inductive DefItem where
  | loc (uri : Uri) (range : Rng)
  | link (targetUri : Uri) (targetRange : Rng)
deriving DecidableEq

/-- The target URI `mapDefinitionResults` reads from an item. -/
def targetUriOf : DefItem → Uri
  | .loc u _ => u
  | .link tu _ => tu

/-- The target range `mapDefinitionResults` reads from an item. -/
def targetRangeOf : DefItem → Rng
  | .loc _ r => r
  | .link _ r => r

/-- `VueTsgoMiddleware.mapDefinitionResults` (middleware.ts lines 43-74) on
the list of result items: for each item it extracts the target URI and
target range, maps the URI through `MappingUtils.mapVirtualToVueFile`, and
pushes `new Location(mappedUri, targetRange)`. -/
def mapDefinitionResults (items : List DefItem) : List (Uri × Rng) :=
  items.map fun it =>
    match it with
    | .loc u r => (mapVirtualToVueFile u, r)
    | .link tu tr => (mapVirtualToVueFile tu, tr)

/-- The range translation the spec's facade contract describes: the
`mapPos` anchor rule applied to both endpoints of a range. -/
def specMapRange (startLine startChar : Nat) (r : Rng) : Rng :=
  let ms := mapPos startLine startChar (r.start.line, r.start.character)
  let me' := mapPos startLine startChar (r.stop.line, r.stop.character)
  { start := { line := ms.1, character := ms.2 },
    stop := { line := me'.1, character := me'.2 } }

/-- C2, amended: `mapDefinitionResults` translates only the target URI of
each returned item (through `mapVirtualToVueFile`); the target range is
returned unchanged — no anchor translation is applied to it — and no item
is ever dropped (the output is index-for-index parallel to the input). -/
theorem C2_definition_result_mapping (items : List DefItem) :
    (mapDefinitionResults items).length = items.length ∧
    ∀ i : Nat, (mapDefinitionResults items)[i]? =
      (items[i]?).map fun it => (mapVirtualToVueFile (targetUriOf it), targetRangeOf it) := by
  constructor
  · simp [mapDefinitionResults]
  · intro i
    unfold mapDefinitionResults
    rw [List.getElem?_map]
    cases hit : items[i]? with
    | none => rfl
    | some it => cases it <;> rfl

/-- C2 as stated is false: for a synthetic-document location with recorded
anchor `(3, 5)` and target range `(0,2)-(0,4)`, the facade returns the
range `(0,2)-(0,4)` unchanged, not the anchor-translated `(3,7)-(3,9)`
that the claim requires. -/
theorem C2_counterexample :
    mapDefinitionResults
      [DefItem.loc { scheme := vueTsgoScheme, path := "/a/App.vue.setup.ts".toList }
        { start := { line := 0, character := 2 }, stop := { line := 0, character := 4 } }] =
      [({ scheme := fileScheme, path := "/a/App.vue".toList },
        { start := { line := 0, character := 2 }, stop := { line := 0, character := 4 } })] ∧
    specMapRange 3 5
        { start := { line := 0, character := 2 }, stop := { line := 0, character := 4 } } =
      { start := { line := 3, character := 7 }, stop := { line := 3, character := 9 } } ∧
    ({ start := { line := 3, character := 7 },
       stop := { line := 3, character := 9 } } : Rng) ≠
      { start := { line := 0, character := 2 }, stop := { line := 0, character := 4 } } := by
  refine ⟨by decide, by decide, by decide⟩

/-- The outcome with which a pending request's promise is settled:
`result` / `errResp` from `handleMessage` (tsgo-backend.ts lines 283-296),
`timedOut` from the `setTimeout` callback (lines 321-326), `stopped` from
the sweep in `stop()` (lines 110-113). -/
inductive COutcome where
  | result
  | errResp
  | timedOut
  | stopped
deriving DecidableEq

/-- One entry of the `pendingRequests` map, together with the timing data
of the `setTimeout` scheduled for it: created at `issuedAt`, timer due at
`deadline`. -/
structure PendingEntry where
  id : Nat
  issuedAt : Nat
  deadline : Nat
deriving DecidableEq

/-- The `TsgoBackend` state the correlator claims concern: whether
`tsgoProcess` is set (`running`), the `requestId` counter, the
`pendingRequests` map, and the history of settlements — each `(id, o)` in
`settled` records one resolution/rejection of the promise of request `id`. -/
structure CorrState where
  running : Bool
  requestId : Nat
  pending : List PendingEntry
  settled : List (Nat × COutcome)
deriving DecidableEq

/-- The fixed `setTimeout` delay of `sendRequest` (tsgo-backend.ts line
326): `30000` ms, with no parameter to override it. -/
def requestTimeoutMs : Nat := 30000

/-- The events that touch the correlator state. -/
inductive CEvent where
  | send (t : Nat)
  | response (id : Nat) (isErr : Bool)
  | timerFire (id : Nat)
  | procExit (code : Int)
  | stopCleanup
deriving DecidableEq

/-- `this.pendingRequests.has(id)`. -/
def hasId (p : List PendingEntry) (id : Nat) : Bool := p.any fun e => e.id == id

/-- One step of the correlator, mirroring the source paths:
* `send t` — `sendRequest` (lines 301-328): when no process is running the
  promise rejects at once and nothing is recorded; otherwise the counter is
  pre-incremented, the entry stored, and a timer scheduled for
  `t + 30000`;
* `response id isErr` — `handleMessage` (lines 283-296): only when the id
  is pending is the entry deleted and the promise resolved (or rejected on
  an error response);
* `timerFire id` — the timeout callback (lines 321-326): only when the id
  is still pending is the entry deleted and the promise rejected;
* `procExit code` — the `exit` handler (lines 260-263): it only clears
  `this.tsgoProcess`;
* `stopCleanup` — the tail of `stop()` (lines 105-113): kill the process,
  reject every pending promise, clear the map. -/
def step (s : CorrState) : CEvent → CorrState
  | .send t =>
    if s.running then
      { s with
          requestId := s.requestId + 1
          pending := s.pending ++
            [{ id := s.requestId + 1, issuedAt := t, deadline := t + requestTimeoutMs }] }
    else s
  | .response id isErr =>
    if hasId s.pending id then
      { s with
          pending := s.pending.filter fun e => e.id != id
          settled := s.settled ++ [(id, if isErr then .errResp else .result)] }
    else s
  | .timerFire id =>
    if hasId s.pending id then
      { s with
          pending := s.pending.filter fun e => e.id != id
          settled := s.settled ++ [(id, .timedOut)] }
    else s
  | .procExit _ => { s with running := false }
  | .stopCleanup =>
    { s with
        running := false
        pending := []
        settled := s.settled ++ s.pending.map fun e => (e.id, .stopped) }

/-- The state right after a successful `start()`. -/
def initState : CorrState :=
  { running := true, requestId := 0, pending := [], settled := [] }

/-- Run a sequence of events from the freshly started backend. -/
def run (es : List CEvent) : CorrState := es.foldl step initState

/-- The ids of the pending entries. -/
def pendingIds (s : CorrState) : List Nat := s.pending.map PendingEntry.id

/-- The ids settled so far. -/
def settledIds (s : CorrState) : List Nat := s.settled.map Prod.fst

/-- The correlator invariant: pending ids and settled ids are each
duplicate-free and mutually disjoint, every id ever used lies in
`[1, requestId]`, and every pending timer is due exactly
`requestTimeoutMs` after its issue time. -/
def Inv (s : CorrState) : Prop :=
  (pendingIds s).Nodup ∧ (settledIds s).Nodup ∧
  (∀ e ∈ s.pending, e.id ∉ settledIds s ∧ 1 ≤ e.id ∧ e.id ≤ s.requestId ∧
    e.deadline = e.issuedAt + requestTimeoutMs) ∧
  (∀ id ∈ settledIds s, 1 ≤ id ∧ id ≤ s.requestId)

theorem hasId_iff (p : List PendingEntry) (id : Nat) :
    hasId p id = true ↔ ∃ e ∈ p, e.id = id := by
  simp [hasId]

theorem mem_pendingIds_iff (s : CorrState) (id : Nat) :
    id ∈ pendingIds s ↔ ∃ e ∈ s.pending, e.id = id := by
  simp [pendingIds, eq_comm]

theorem inv_step (s : CorrState) (e : CEvent) (h : Inv s) : Inv (step s e) := by
  obtain ⟨hnp, hns, hpe, hse⟩ := h
  unfold Inv pendingIds settledIds at *
  cases e with
  | send t =>
    simp only [step]
    by_cases hr : s.running
    · rw [if_pos hr]
      dsimp only
      have hfresh : (s.requestId + 1) ∉ s.pending.map PendingEntry.id := by
        intro hmem
        simp only [List.mem_map] at hmem
        obtain ⟨e, he, hid⟩ := hmem
        have := (hpe e he).2.2.1
        omega
      refine ⟨?_, hns, ?_, ?_⟩
      · simp only [List.map_append, List.map_cons, List.map_nil]
        rw [List.nodup_append]
        refine ⟨hnp, List.nodup_singleton _, ?_⟩
        intro a ha hb
        simp only [List.mem_singleton] at hb
        subst hb
        exact hfresh ha
      · intro e he
        simp only [List.mem_append, List.mem_singleton] at he
        cases he with
        | inl he =>
          obtain ⟨h1, h2, h3, h4⟩ := hpe e he
          exact ⟨h1, h2, by omega, h4⟩
        | inr he =>
          subst he
          dsimp only
          refine ⟨?_, by omega, by omega, rfl⟩
          intro hmem
          have := hse _ hmem
          omega
      · intro id hid
        have := hse id hid
        exact ⟨this.1, by omega⟩
    · rw [if_neg hr]
      exact ⟨hnp, hns, hpe, hse⟩
  | response id isErr =>
    simp only [step]
    by_cases hh : hasId s.pending id
    · rw [if_pos hh]
      dsimp only
      rw [hasId_iff] at hh
      obtain ⟨e0, he0, hid0⟩ := hh
      have hidnotset : id ∉ s.settled.map Prod.fst := by
        have := (hpe e0 he0).1
        rwa [hid0] at this
      refine ⟨?_, ?_, ?_, ?_⟩
      · exact List.Nodup.sublist ((List.filter_sublist _).map _) hnp
      · simp only [List.map_append, List.map_cons, List.map_nil]
        rw [List.nodup_append]
        refine ⟨hns, List.nodup_singleton _, ?_⟩
        intro a ha hb
        simp only [List.mem_singleton] at hb
        subst hb
        exact hidnotset ha
      · intro x hx
        have hxmem := (List.mem_filter.mp hx).1
        have hxne : x.id ≠ id := by
          have := (List.mem_filter.mp hx).2
          simpa using this
        obtain ⟨h1, h2, h3, h4⟩ := hpe x hxmem
        refine ⟨?_, h2, h3, h4⟩
        simp only [List.map_append, List.map_cons, List.map_nil, List.mem_append,
          List.mem_singleton]
        intro hc
        cases hc with
        | inl hc => exact h1 hc
        | inr hc => exact hxne hc
      · intro i hi
        simp only [List.map_append, List.map_cons, List.map_nil, List.mem_append,
          List.mem_singleton] at hi
        cases hi with
        | inl hi => exact hse i hi
        | inr hi =>
          subst hi
          have h1 := (hpe e0 he0).2.2.1
          have h2 := (hpe e0 he0).2.1
          omega
    · rw [if_neg hh]
      exact ⟨hnp, hns, hpe, hse⟩
  | timerFire id =>
    simp only [step]
    by_cases hh : hasId s.pending id
    · rw [if_pos hh]
      dsimp only
      rw [hasId_iff] at hh
      obtain ⟨e0, he0, hid0⟩ := hh
      have hidnotset : id ∉ s.settled.map Prod.fst := by
        have := (hpe e0 he0).1
        rwa [hid0] at this
      refine ⟨?_, ?_, ?_, ?_⟩
      · exact List.Nodup.sublist ((List.filter_sublist _).map _) hnp
      · simp only [List.map_append, List.map_cons, List.map_nil]
        rw [List.nodup_append]
        refine ⟨hns, List.nodup_singleton _, ?_⟩
        intro a ha hb
        simp only [List.mem_singleton] at hb
        subst hb
        exact hidnotset ha
      · intro x hx
        have hxmem := (List.mem_filter.mp hx).1
        have hxne : x.id ≠ id := by
          have := (List.mem_filter.mp hx).2
          simpa using this
        obtain ⟨h1, h2, h3, h4⟩ := hpe x hxmem
        refine ⟨?_, h2, h3, h4⟩
        simp only [List.map_append, List.map_cons, List.map_nil, List.mem_append,
          List.mem_singleton]
        intro hc
        cases hc with
        | inl hc => exact h1 hc
        | inr hc => exact hxne hc
      · intro i hi
        simp only [List.map_append, List.map_cons, List.map_nil, List.mem_append,
          List.mem_singleton] at hi
        cases hi with
        | inl hi => exact hse i hi
        | inr hi =>
          subst hi
          have h1 := (hpe e0 he0).2.2.1
          have h2 := (hpe e0 he0).2.1
          omega
    · rw [if_neg hh]
      exact ⟨hnp, hns, hpe, hse⟩
  | procExit code =>
    simp only [step]
    exact ⟨hnp, hns, hpe, hse⟩
  | stopCleanup =>
    simp only [step]
    refine ⟨by simp, ?_, by simp, ?_⟩
    · simp only [List.map_append, List.map_map]
      rw [List.nodup_append]
      refine ⟨hns, ?_, ?_⟩
      · have heq : (Prod.fst ∘ fun e => ((e.id, COutcome.stopped) : Nat × COutcome)) =
            PendingEntry.id := by
          funext x
          rfl
        rw [heq]
        exact hnp
      · intro a ha hb
        simp only [Function.comp, List.mem_map] at hb
        obtain ⟨x, hx, hxa⟩ := hb
        have := (hpe x hx).1
        rw [hxa] at this
        exact this ha
    · intro i hi
      simp only [List.map_append, List.mem_append] at hi
      cases hi with
      | inl hi => exact hse i hi
      | inr hi =>
        simp only [List.map_map, Function.comp, List.mem_map] at hi
        obtain ⟨x, hx, hxa⟩ := hi
        have h1 := (hpe x hx).2.1
        have h2 := (hpe x hx).2.2.1
        subst hxa
        exact ⟨h1, h2⟩

theorem inv_foldl : ∀ (es : List CEvent) (s : CorrState), Inv s → Inv (es.foldl step s)
  | [], _, h => h
  | e :: es, s, h => inv_foldl es (step s e) (inv_step s e h)

theorem inv_init : Inv initState := by
  refine ⟨by simp [pendingIds, initState], by simp [settledIds, initState], ?_, ?_⟩
  · intro e he
    simp [initState] at he
  · intro id hid
    simp [settledIds, initState] at hid

theorem inv_run (es : List CEvent) : Inv (run es) := inv_foldl es initState inv_init

/-- C6: over every event sequence from a freshly started backend, each
issued identifier is settled at most once (the settled-id list is
duplicate-free), no identifier is simultaneously pending and settled,
every id ever used lies in `[1, requestId]` — so the pre-incremented
counter never reissues an id — and a response or timer event for an
identifier that is no longer pending leaves the state entirely
unchanged. -/
theorem C6_exactly_once_settlement (es : List CEvent) :
    (pendingIds (run es)).Nodup ∧
    (settledIds (run es)).Nodup ∧
    (∀ e ∈ (run es).pending, e.id ∉ settledIds (run es) ∧
      1 ≤ e.id ∧ e.id ≤ (run es).requestId) ∧
    (∀ id ∈ settledIds (run es), 1 ≤ id ∧ id ≤ (run es).requestId) ∧
    ((run es).requestId + 1 ∉ pendingIds (run es) ∧
      (run es).requestId + 1 ∉ settledIds (run es)) ∧
    (∀ id isErr, id ∉ pendingIds (run es) →
      step (run es) (.response id isErr) = run es ∧
      step (run es) (.timerFire id) = run es) := by
  obtain ⟨hnp, hns, hpe, hse⟩ := inv_run es
  refine ⟨hnp, hns,
    fun e he => ⟨(hpe e he).1, (hpe e he).2.1, (hpe e he).2.2.1⟩, hse, ⟨?_, ?_⟩, ?_⟩
  · intro hmem
    rw [mem_pendingIds_iff] at hmem
    obtain ⟨e, he, hid⟩ := hmem
    have := (hpe e he).2.2.1
    omega
  · intro hmem
    have := hse _ hmem
    omega
  · intro id isErr hid
    have hh : ¬ (hasId (run es).pending id = true) := by
      rw [hasId_iff]
      rintro ⟨e, he, hide⟩
      exact hid (List.mem_map.mpr ⟨e, he, hide⟩)
    constructor
    · simp only [step]
      rw [if_neg hh]
    · simp only [step]
      rw [if_neg hh]

/-- Witness for C6: after `send` and the matching response, a duplicate
response for id 1 is a no-op. -/
theorem C6_witness :
    step (run [CEvent.send 0, CEvent.response 1 false]) (CEvent.response 1 false) =
      run [CEvent.send 0, CEvent.response 1 false] :=
  ((C6_exactly_once_settlement [CEvent.send 0, CEvent.response 1 false]).2.2.2.2.2
    1 false (by decide)).1

/-- C8, amended: every pending request's timer is due exactly
`requestTimeoutMs = 30000` ms after its issue time — the timeout is fixed
in `sendRequest` and there is no per-call override — and when the timer of
a still-pending request fires, the entry is removed and the call settles
with the timeout failure. -/
theorem C8_fixed_timeout (es : List CEvent) :
    (∀ e ∈ (run es).pending, e.deadline = e.issuedAt + requestTimeoutMs) ∧
    (∀ e ∈ (run es).pending,
      (step (run es) (.timerFire e.id)).settled =
        (run es).settled ++ [(e.id, COutcome.timedOut)] ∧
      e.id ∉ pendingIds (step (run es) (.timerFire e.id))) := by
  obtain ⟨hnp, hns, hpe, hse⟩ := inv_run es
  refine ⟨fun e he => (hpe e he).2.2.2, ?_⟩
  intro e he
  have hh : hasId (run es).pending e.id = true := by
    rw [hasId_iff]
    exact ⟨e, he, rfl⟩
  constructor
  · simp only [step]
    rw [if_pos hh]
  · simp only [step]
    rw [if_pos hh]
    unfold pendingIds
    dsimp only
    intro hmem
    simp only [List.mem_map] at hmem
    obtain ⟨x, hx, hxe⟩ := hmem
    have hb := (List.mem_filter.mp hx).2
    rw [hxe] at hb
    simp at hb

/-- C8 as stated is false in its "callers may override" part: no reachable
correlator state has a pending entry whose deadline differs from
`issuedAt + 30000` — the timeout cannot be overridden per call, because
`sendRequest` takes no timeout argument and hard-codes `30000`. -/
theorem C8_counterexample :
    ¬ ∃ (es : List CEvent) (e : PendingEntry),
      e ∈ (run es).pending ∧ e.deadline ≠ e.issuedAt + 30000 := by
  rintro ⟨es, e, he, hne⟩
  have hd := ((inv_run es).2.2.1 e he).2.2.2
  have h30 : e.issuedAt + requestTimeoutMs = e.issuedAt + 30000 := rfl
  exact hne (hd.trans h30)

/-- Witness for C8: the single request issued at `t = 7` carries deadline
`30007`. -/
theorem C8_witness :
    ({ id := 1, issuedAt := 7, deadline := 30007 } : PendingEntry) ∈
      (run [CEvent.send 7]).pending ∧
    ({ id := 1, issuedAt := 7, deadline := 30007 } : PendingEntry).deadline =
      ({ id := 1, issuedAt := 7, deadline := 30007 } : PendingEntry).issuedAt +
        requestTimeoutMs :=
  ⟨by decide, (C8_fixed_timeout [CEvent.send 7]).1 _ (by decide)⟩

/-- C3, amended: on unexpected process exit the handler only clears the
process handle — the bridge becomes unavailable (new sends are rejected
without being recorded) — but the calls pending at that moment are *not*
rejected then: the pending set and the settlement history are untouched,
and each such call fails only later, through its own 30 s timer
(`timedOut`) or through an explicit `stop()` sweep (`stopped`). -/
theorem C3_exit_marks_unavailable (es : List CEvent) (code : Int) :
    (step (run es) (.procExit code)).running = false ∧
    (step (run es) (.procExit code)).pending = (run es).pending ∧
    (step (run es) (.procExit code)).settled = (run es).settled ∧
    (∀ t, step (step (run es) (.procExit code)) (.send t) =
      step (run es) (.procExit code)) ∧
    (∀ e ∈ (run es).pending,
      (step (step (run es) (.procExit code)) (.timerFire e.id)).settled =
        (run es).settled ++ [(e.id, COutcome.timedOut)]) ∧
    (step (step (run es) (.procExit code)) CEvent.stopCleanup).pending = [] ∧
    (step (step (run es) (.procExit code)) CEvent.stopCleanup).settled =
      (run es).settled ++ (run es).pending.map (fun e => (e.id, COutcome.stopped)) := by
  refine ⟨rfl, rfl, rfl, ?_, ?_, rfl, rfl⟩
  · intro t
    simp only [step]
    rw [if_neg (by simp)]
  · intro e he
    have hh : hasId (run es).pending e.id = true := by
      rw [hasId_iff]
      exact ⟨e, he, rfl⟩
    simp only [step]
    rw [if_pos hh]

/-- C3 as stated is false: with one call pending, the unexpected-exit
handler leaves it pending and settles nothing — it only marks the bridge
unavailable; the pending call is not rejected with a backend-terminated
failure. -/
theorem C3_counterexample :
    (run [CEvent.send 0]).pending =
      [{ id := 1, issuedAt := 0, deadline := 30000 }] ∧
    step (run [CEvent.send 0]) (CEvent.procExit 1) =
      { running := false, requestId := 1,
        pending := [{ id := 1, issuedAt := 0, deadline := 30000 }], settled := [] } ∧
    (step (run [CEvent.send 0]) (CEvent.procExit 1)).settled = [] := by
  refine ⟨by decide, by decide, by decide⟩

/-- Witness for C3: the concrete one-pending-call scenario; after the exit
the id-1 timer still settles the call with the timeout failure. -/
theorem C3_witness :
    (step (run [CEvent.send 0]) (CEvent.procExit 1)).running = false ∧
    (step (step (run [CEvent.send 0]) (CEvent.procExit 1)) (CEvent.timerFire 1)).settled =
      (run [CEvent.send 0]).settled ++ [(1, COutcome.timedOut)] :=
  ⟨(C3_exit_marks_unavailable [CEvent.send 0] 1).1,
    (C3_exit_marks_unavailable [CEvent.send 0] 1).2.2.2.2.1
      { id := 1, issuedAt := 0, deadline := 30000 } (by decide)⟩

/-- The observable outcome of the startup race in `start()`
(tsgo-backend.ts lines 23-88): the `error` event fires inside the grace
window (spawn failure), the `exit` event fires inside the grace window
(premature exit), the LSP handshake after the grace window fails, or
everything succeeds. -/
inductive StartOutcome where
  | spawnError
  | prematureExit (code : Int)
  | handshakeFailed
  | startedOk
deriving DecidableEq

/-- The body of the `try` block of `start()` (lines 26-82): the startup
promise rejects on a spawn error or a premature exit, `initializeLsp`
rejects on a handshake failure, and otherwise the body completes. -/
def startBody : StartOutcome → Except (List Char) Unit
  | .spawnError => .error ("TSGo process failed to start".toList)
  | .prematureExit _ => .error ("TSGo process exited prematurely".toList)
  | .handshakeFailed => .error ("initialize request failed".toList)
  | .startedOk => .ok ()

/-- `TsgoBackend.start` (lines 23-88): the whole body is wrapped in a
`try`/`catch` whose `catch` only logs — the comment at lines 85-86 says
"do not rethrow the error; let the language server continue without the
TSGo backend" — so `start()` resolves in every case. -/
def tsgoStart (o : StartOutcome) : Except (List Char) Unit :=
  match startBody o with
  | .error _ => .ok ()
  | .ok u => .ok u

/-- C4 as stated is false: a spawn failure and a premature exit both make
the inner startup promise reject, yet `start()` itself still completes
normally — nothing is reported upward as a hard failure. -/
theorem C4_counterexample :
    startBody StartOutcome.spawnError ≠ Except.ok () ∧
    tsgoStart StartOutcome.spawnError = Except.ok () ∧
    startBody (StartOutcome.prematureExit 127) ≠ Except.ok () ∧
    tsgoStart (StartOutcome.prematureExit 127) = Except.ok () := by
  refine ⟨?_, rfl, ?_, rfl⟩ <;> intro h <;> exact Except.noConfusion h

/-- C4, amended: `start()` never rejects: for every startup outcome —
spawn error, premature exit inside the grace window, handshake failure,
or success — `start()` completes normally; startup failures are caught,
logged and absorbed, leaving the bridge without a running backend. -/
theorem C4_start_absorbs_failures (o : StartOutcome) :
    tsgoStart o = Except.ok () := by
  cases o <;> rfl

/-- The notifications and requests a provider call can emit. -/
inductive LspNote where
  | noteDidOpen
  | noteDidClose
  | noteDefRequest
  | noteHoverRequest
deriving DecidableEq

/-- A provider computation: the notes emitted so far and the result. -/
abbrev TraceT (α : Type) := List LspNote × Except (List Char) α

/-- Sequencing: an exception short-circuits, otherwise traces append. -/
def traceBind {α β : Type} (p : TraceT α) (f : α → TraceT β) : TraceT β :=
  match p with
  | (tr, .error e) => (tr, .error e)
  | (tr, .ok a) => ((tr ++ (f a).1 : List LspNote), (f a).2)

/-- `try { p } catch { return dflt }`. -/
def traceCatch {α : Type} (p : TraceT α) (dflt : α) : TraceT α :=
  match p with
  | (tr, .error _) => (tr, .ok dflt)
  | (tr, .ok a) => (tr, .ok a)

/-- `try { p } finally { fin }` where the finalizer itself cannot fail:
its notes always run, the body's result (or exception) is kept. -/
def traceFinally {α : Type} (p : TraceT α) (fin : TraceT Unit) : TraceT α :=
  ((p.1 ++ fin.1 : List LspNote), p.2)

/-- `sendNotification` (tsgo-backend.ts lines 333-345): throws when no
process is running, otherwise writes the notification. -/
def sendNotificationT (running : Bool) (n : LspNote) : TraceT Unit :=
  if running then ([n], .ok ()) else ([], .error ("TSGo process not running".toList))

/-- `sendRequest` (lines 301-328), abstracted to the outcome its promise
eventually settles with. -/
def sendRequestT (running : Bool) (n : LspNote)
    (outcome : Except (List Char) Unit) : TraceT Unit :=
  if running then ([n], outcome) else ([], .error ("TSGo process not running".toList))

/-- `TsgoBackend.provideDefinition` (lines 119-138): `openDocument`
(a `didOpen` notification), then the definition request; any failure is
caught and `null` returned.  No `didClose` is ever issued on this path —
`closeDocument` (lines 186-190) has no caller in the class. -/
def tsgoProvideDefinition (running : Bool)
    (outcome : Except (List Char) Unit) : TraceT Unit :=
  traceCatch
    (traceBind (sendNotificationT running .noteDidOpen)
      (fun _ => sendRequestT running .noteDefRequest outcome)) ()

/-- `TsgoBackend.provideHover` (lines 143-167): same shape as
`provideDefinition` with the hover request. -/
def tsgoProvideHover (running : Bool)
    (outcome : Except (List Char) Unit) : TraceT Unit :=
  traceCatch
    (traceBind (sendNotificationT running .noteDidOpen)
      (fun _ => sendRequestT running .noteHoverRequest outcome)) ()

/-- `ensureTsOpened` of `VueLanguageProviders` (vue-providers lines
216-229): the editor-side client sends the `didOpen` notification. -/
def ensureTsOpenedT : TraceT Unit := ([LspNote.noteDidOpen], .ok ())

/-- `closeTsVirtual` (lines 234-241): the `didClose` notification. -/
def closeTsVirtualT : TraceT Unit := ([LspNote.noteDidClose], .ok ())

/-- `requestDefinition` (lines 246-261): the request wrapped in its own
`try`/`catch` returning `undefined` on error. -/
def requestDefinitionT (outcome : Except (List Char) Unit) : TraceT Unit :=
  traceCatch ([LspNote.noteDefRequest], outcome) ()

/-- `requestHover` (lines 266-280): same shape for the hover request. -/
def requestHoverT (outcome : Except (List Char) Unit) : TraceT Unit :=
  traceCatch ([LspNote.noteHoverRequest], outcome) ()

/-- The hover provider of `VueLanguageProviders` (lines 21-82): return
early (before any notification) when the client is missing, the position
is outside the script region, or the Vue file cannot be parsed; otherwise
`ensureTsOpened`, then `try { requestDefinition; requestHover; build }`
with a guaranteed `closeTsVirtual` in the `finally`. -/
def vueHoverProviderTrace (clientOk posInScript parseOk : Bool)
    (defOutcome hovOutcome : Except (List Char) Unit) : List LspNote :=
  if clientOk ∧ posInScript ∧ parseOk then
    (traceBind ensureTsOpenedT (fun _ =>
      traceFinally
        (traceBind (requestDefinitionT defOutcome) (fun _ => requestHoverT hovOutcome))
        closeTsVirtualT)).1
  else []

/-- The definition provider of `VueLanguageProviders` (lines 87-175):
early returns, then `ensureTsOpened`, then
`try { requestDefinition; map results } finally { closeTsVirtual }`. -/
def vueDefProviderTrace (clientOk posInScript parseOk : Bool)
    (defOutcome : Except (List Char) Unit) : List LspNote :=
  if clientOk ∧ posInScript ∧ parseOk then
    (traceBind ensureTsOpenedT (fun _ =>
      traceFinally (requestDefinitionT defOutcome) closeTsVirtualT)).1
  else []

/-- C5, amended: in the editor-side `VueLanguageProviders` every call
either emits nothing or emits exactly `didOpen`, its requests, and a
final `didClose` — success or failure alike, the synthetic document never
outlives the call; the `TsgoBackend` facade, by contrast, issues `didOpen`
but never a `didClose` (its `closeDocument` is dead code). -/
theorem C5_did_open_close_pairing (clientOk posInScript parseOk : Bool)
    (defOutcome hovOutcome : Except (List Char) Unit) (running : Bool) :
    (vueHoverProviderTrace clientOk posInScript parseOk defOutcome hovOutcome = [] ∨
      vueHoverProviderTrace clientOk posInScript parseOk defOutcome hovOutcome =
        [.noteDidOpen, .noteDefRequest, .noteHoverRequest, .noteDidClose]) ∧
    (vueDefProviderTrace clientOk posInScript parseOk defOutcome = [] ∨
      vueDefProviderTrace clientOk posInScript parseOk defOutcome =
        [.noteDidOpen, .noteDefRequest, .noteDidClose]) ∧
    LspNote.noteDidClose ∉ (tsgoProvideDefinition running defOutcome).1 ∧
    LspNote.noteDidClose ∉ (tsgoProvideHover running hovOutcome).1 := by
  refine ⟨?_, ?_, ?_, ?_⟩
  · by_cases hg : clientOk ∧ posInScript ∧ parseOk
    · right
      unfold vueHoverProviderTrace
      rw [if_pos hg]
      cases defOutcome <;> cases hovOutcome <;> rfl
    · left
      unfold vueHoverProviderTrace
      rw [if_neg hg]
  · by_cases hg : clientOk ∧ posInScript ∧ parseOk
    · right
      unfold vueDefProviderTrace
      rw [if_pos hg]
      cases defOutcome <;> rfl
    · left
      unfold vueDefProviderTrace
      rw [if_neg hg]
  · cases running <;> cases defOutcome <;>
      simp [tsgoProvideDefinition, traceCatch, traceBind, sendNotificationT, sendRequestT]
  · cases running <;> cases hovOutcome <;>
      simp [tsgoProvideHover, traceCatch, traceBind, sendNotificationT, sendRequestT]

/-- C5 as stated is false for the `TsgoBackend` facade itself: a
successful `provideDefinition` (and `provideHover`) call issues `didOpen`
but completes without ever issuing `didClose`. -/
theorem C5_counterexample :
    LspNote.noteDidOpen ∈ (tsgoProvideDefinition true (Except.ok ())).1 ∧
    LspNote.noteDidClose ∉ (tsgoProvideDefinition true (Except.ok ())).1 ∧
    LspNote.noteDidOpen ∈ (tsgoProvideHover true (Except.ok ())).1 ∧
    LspNote.noteDidClose ∉ (tsgoProvideHover true (Except.ok ())).1 := by
  decide

/-- The character of a decimal digit. -/
def digitChar (n : Nat) : Char := Char.ofNat (48 + n)

/-- Decimal notation, fuelled so that it evaluates in the kernel. -/
def natToCharsF : Nat → Nat → List Char
  | 0, _ => []
  | fuel + 1, n =>
    if n < 10 then [digitChar n]
    else natToCharsF fuel (n / 10) ++ [digitChar (n % 10)]

/-- `String(N)` / the `${...}` interpolation of a number: its decimal
digits. -/
def natToChars (n : Nat) : List Char := natToCharsF (n + 1) n

theorem natToCharsF_congr : ∀ (f : Nat) (n g : Nat), n < f → n < g →
    natToCharsF f n = natToCharsF g n := by
  intro f
  induction f with
  | zero => intro n g h; omega
  | succ f ih =>
    intro n g hf hg
    cases g with
    | zero => omega
    | succ g =>
      by_cases h10 : n < 10
      · simp [natToCharsF, h10]
      · have hlt : n / 10 < n := Nat.div_lt_self (by omega) (by omega)
        simp only [natToCharsF, h10, if_false]
        rw [ih (n / 10) g (by omega) (by omega)]

/-- The defining recurrence of `natToChars`. -/
theorem natToChars_eq (n : Nat) : natToChars n =
    if n < 10 then [digitChar n] else natToChars (n / 10) ++ [digitChar (n % 10)] := by
  by_cases h10 : n < 10
  · simp [natToChars, natToCharsF, h10]
  · rw [if_neg h10]
    have hlt : n / 10 < n := Nat.div_lt_self (by omega) (by omega)
    have h1 : natToCharsF (n + 1) n = natToCharsF n (n / 10) ++ [digitChar (n % 10)] := by
      rw [natToCharsF, if_neg h10]
    show natToCharsF (n + 1) n = _
    rw [h1]
    unfold natToChars
    rw [natToCharsF_congr n (n / 10) (n / 10 + 1) (by omega) (by omega)]

/-- The digit test of the decimal parser (`parseInt` model). -/
def isDigitCh (c : Char) : Bool := decide (48 ≤ c.toNat) && decide (c.toNat ≤ 57)

/-- Value of a digit character. -/
def digitVal (c : Char) : Nat := c.toNat - 48

/-- Consume the maximal digit prefix, accumulating the value. -/
def parseDigits : List Char → Nat → Nat × List Char
  | [], acc => (acc, [])
  | c :: rest, acc =>
    if isDigitCh c then parseDigits rest (acc * 10 + digitVal c) else (acc, c :: rest)

/-- `parseInt(s)`: `none` models `NaN` (no leading digit); otherwise the
value of the maximal digit prefix.  (The sign/whitespace handling of the
JavaScript `parseInt` never arises in this header traffic.) -/
def parseIntLeading (l : List Char) : Option Nat :=
  match l with
  | [] => none
  | c :: _ => if isDigitCh c then some (parseDigits l 0).1 else none

/-- A list whose head (if any) is not a decimal digit. -/
def headNotDigit : List Char → Bool
  | [] => true
  | c :: _ => !(isDigitCh c)

theorem digitChar_isDigit {n : Nat} (h : n < 10) : isDigitCh (digitChar n) = true := by
  interval_cases n <;> decide

theorem digitVal_digitChar {n : Nat} (h : n < 10) : digitVal (digitChar n) = n := by
  interval_cases n <;> decide

theorem natToChars_ne_nil_digits (n : Nat) :
    natToChars n ≠ [] ∧ ∀ c ∈ natToChars n, isDigitCh c = true := by
  induction n using Nat.strong_induction_on with
  | _ n ih =>
    rw [natToChars_eq]
    by_cases h10 : n < 10
    · rw [if_pos h10]
      refine ⟨by simp, ?_⟩
      intro c hc
      simp at hc
      subst hc
      exact digitChar_isDigit h10
    · rw [if_neg h10]
      have hlt : n / 10 < n := Nat.div_lt_self (by omega) (by omega)
      obtain ⟨hne, hdig⟩ := ih (n / 10) hlt
      refine ⟨by simp [hne], ?_⟩
      intro c hc
      simp only [List.mem_append, List.mem_singleton] at hc
      cases hc with
      | inl hc => exact hdig c hc
      | inr hc =>
        subst hc
        exact digitChar_isDigit (Nat.mod_lt _ (by omega))

theorem parseDigits_natToChars (n : Nat) : ∀ (acc : Nat) (rest : List Char),
    parseDigits (natToChars n ++ rest) acc =
      parseDigits rest (acc * 10 ^ (natToChars n).length + n) := by
  induction n using Nat.strong_induction_on with
  | _ n ih =>
    intro acc rest
    by_cases h10 : n < 10
    · rw [natToChars_eq, if_pos h10]
      simp only [List.cons_append, List.nil_append, List.length_cons, List.length_nil]
      rw [parseDigits, if_pos (digitChar_isDigit h10), digitVal_digitChar h10]
      norm_num
    · have hlt : n / 10 < n := Nat.div_lt_self (by omega) (by omega)
      rw [natToChars_eq, if_neg h10]
      rw [List.append_assoc, List.cons_append, List.nil_append, ih (n / 10) hlt]
      rw [parseDigits, if_pos (digitChar_isDigit (Nat.mod_lt _ (by omega))),
        digitVal_digitChar (Nat.mod_lt _ (by omega))]
      have hlen : (natToChars (n / 10) ++ [digitChar (n % 10)]).length =
          (natToChars (n / 10)).length + 1 := by simp
      rw [hlen, pow_succ]
      have hdm : n / 10 * 10 + n % 10 = n := by omega
      have harith : (acc * 10 ^ (natToChars (n / 10)).length + n / 10) * 10 + n % 10 =
          acc * (10 ^ (natToChars (n / 10)).length * 10) + n := by
        calc (acc * 10 ^ (natToChars (n / 10)).length + n / 10) * 10 + n % 10 =
            acc * 10 ^ (natToChars (n / 10)).length * 10 + (n / 10 * 10 + n % 10) := by ring
          _ = acc * (10 ^ (natToChars (n / 10)).length * 10) + n := by rw [hdm, mul_assoc]
      rw [harith]

theorem parseDigits_stop (l : List Char) (acc : Nat) (h : headNotDigit l = true) :
    parseDigits l acc = (acc, l) := by
  cases l with
  | nil => rfl
  | cons c rest =>
    unfold headNotDigit at h
    simp only [Bool.not_eq_true'] at h
    rw [parseDigits, if_neg (by simp [h])]

/-- The decimal round trip: reading back the digits of `n` recovers `n`
and stops exactly at `rest`. -/
theorem parseDigits_roundtrip (n : Nat) (rest : List Char) (h : headNotDigit rest = true) :
    parseDigits (natToChars n ++ rest) 0 = (n, rest) := by
  rw [parseDigits_natToChars, parseDigits_stop _ _ h]
  norm_num

theorem parseIntLeading_natToChars (n : Nat) :
    parseIntLeading (natToChars n) = some n := by
  obtain ⟨hne, hdig⟩ := natToChars_ne_nil_digits n
  cases hc : natToChars n with
  | nil => exact absurd hc hne
  | cons c cs =>
    have hd : isDigitCh c = true := hdig c (by rw [hc]; simp)
    show (if isDigitCh c then some (parseDigits (c :: cs) 0).1 else none) = some n
    rw [if_pos hd]
    have hrt := parseDigits_roundtrip n [] rfl
    rw [List.append_nil, hc] at hrt
    rw [hrt]

/-- The UTF-8 size of one code point — the unit in which
`Buffer.byteLength` counts. -/
def utf8Len (c : Char) : Nat :=
  if c.toNat < 128 then 1
  else if c.toNat < 2048 then 2
  else if c.toNat < 65536 then 3
  else 4

/-- `Buffer.byteLength(content)` under the default UTF-8 encoding. -/
def byteLen (l : List Char) : Nat := (l.map utf8Len).sum

theorem byteLen_eq_length {l : List Char} (h : ∀ c ∈ l, c.toNat < 128) :
    byteLen l = l.length := by
  induction l with
  | nil => rfl
  | cons c rest ih =>
    have hc : utf8Len c = 1 := by
      unfold utf8Len
      rw [if_pos (h c (by simp))]
    unfold byteLen at *
    simp only [List.map_cons, List.sum_cons, hc, List.length_cons]
    rw [ih (fun x hx => h x (by simp [hx]))]
    omega

/-- `String.prototype.split` on a fixed two-character separator
(`"\r\n"` between header lines, `": "` inside a line). -/
def splitStr2 (c1 c2 : Char) : List Char → List (List Char)
  | [] => [[]]
  | [a] => [[a]]
  | a :: b :: rest =>
    if a = c1 ∧ b = c2 then [] :: splitStr2 c1 c2 rest
    else consHead a (splitStr2 c1 c2 (b :: rest))

theorem splitStr2_cons_ne {c1 : Char} (c2 : Char) {a : Char} (ha : a ≠ c1)
    (l : List Char) : splitStr2 c1 c2 (a :: l) = consHead a (splitStr2 c1 c2 l) := by
  cases l with
  | nil => simp [splitStr2, consHead]
  | cons b rest =>
    rw [splitStr2, if_neg (by rintro ⟨h1, _⟩; exact ha h1)]

theorem splitStr2_no_sep {c1 : Char} (c2 : Char) :
    ∀ {l : List Char}, (∀ c ∈ l, c ≠ c1) → splitStr2 c1 c2 l = [l] := by
  intro l
  induction l with
  | nil => intro _; rfl
  | cons a rest ih =>
    intro h
    rw [splitStr2_cons_ne c2 (h a (by simp)) rest,
      ih (fun c hc => h c (by simp [hc]))]
    rfl

theorem splitStr2_key_value {k v : List Char} (hk : ∀ c ∈ k, c ≠ ':')
    (hv : ∀ c ∈ v, c ≠ ':') :
    splitStr2 ':' ' ' (k ++ ':' :: ' ' :: v) = [k, v] := by
  induction k with
  | nil =>
    show splitStr2 ':' ' ' (':' :: ' ' :: v) = [[], v]
    rw [splitStr2, if_pos ⟨rfl, rfl⟩, splitStr2_no_sep ' ' hv]
  | cons a k' ih =>
    have ha : a ≠ ':' := hk a (by simp)
    rw [List.cons_append, splitStr2_cons_ne ' ' ha,
      ih (fun c hc => hk c (by simp [hc]))]
    rfl

/-- `parseHeaders` (tsgo-backend.ts lines 269-278): split the header block
on `"\r\n"`, split each line on `": "`, keep the first two parts when key
and value are both nonempty, lowercase the key.  Later assignments
override earlier ones; prepending models the object write so that lookup
takes the first (most recent) match. -/
def parseHeaders (headerStr : List Char) : List (List Char × List Char) :=
  (splitStr2 '\r' '\n' headerStr).foldl
    (fun acc line =>
      match splitStr2 ':' ' ' line with
      | k :: v :: _ => if k ≠ [] ∧ v ≠ [] then (k.map Char.toLower, v) :: acc else acc
      | _ => acc) []

/-- `headers[key]`. -/
def lookupHeader (hs : List (List Char × List Char)) (key : List Char) :
    Option (List Char) :=
  match hs.find? (fun kv => decide (kv.1 = key)) with
  | some kv => some kv.2
  | none => none

/-- `"content-length"`. -/
def contentLengthKey : List Char :=
  ['c', 'o', 'n', 't', 'e', 'n', 't', '-', 'l', 'e', 'n', 'g', 't', 'h']

/-- `"Content-Length"` as written by `sendMessage`. -/
def clHeaderName : List Char :=
  ['C', 'o', 'n', 't', 'e', 'n', 't', '-', 'L', 'e', 'n', 'g', 't', 'h']

/-- `parseInt(headers["content-length"] || "0")` (line 235): a missing
header falls back to `"0"`; a present header is parsed, `none` modelling
`NaN`. -/
def contentLenOf (headerStr : List Char) : Option Nat :=
  match lookupHeader (parseHeaders headerStr) contentLengthKey with
  | none => some 0
  | some v => parseIntLeading v

/-- `buffer.indexOf("\r\n\r\n")` (line 232), as an option. -/
def findDelim : List Char → Option Nat
  | a :: b :: c :: d :: rest =>
    if a = '\r' ∧ b = '\n' ∧ c = '\r' ∧ d = '\n' then some 0
    else (findDelim (b :: c :: d :: rest)).map (· + 1)
  | _ => none

theorem findDelim_cons_ne {a : Char} (ha : a ≠ '\r') (l : List Char) :
    findDelim (a :: l) = (findDelim l).map (· + 1) := by
  match l with
  | [] => rfl
  | [b] => rfl
  | [b, c] => rfl
  | b :: c :: d :: rest =>
    rw [findDelim, if_neg (by rintro ⟨h1, _⟩; exact ha h1)]

theorem findDelim_front : ∀ {x : List Char}, (∀ c ∈ x, c ≠ '\r') →
    ∀ (b : List Char),
    findDelim (x ++ '\r' :: '\n' :: '\r' :: '\n' :: b) = some x.length := by
  intro x
  induction x with
  | nil =>
    intro _ b
    rw [List.nil_append, findDelim, if_pos ⟨rfl, rfl, rfl, rfl⟩]
    rfl
  | cons a x' ih =>
    intro h b
    rw [List.cons_append, findDelim_cons_ne (h a (by simp)) _,
      ih (fun c hc => h c (by simp [hc])) b]
    rfl

theorem findDelim_bound : ∀ (l : List Char) (i : Nat),
    findDelim l = some i → i + 4 ≤ l.length := by
  intro l
  match l with
  | [] => intro i h; exact absurd h (by simp [findDelim])
  | [a] => intro i h; exact absurd h (by simp [findDelim])
  | [a, b] => intro i h; exact absurd h (by simp [findDelim])
  | [a, b, c] => intro i h; exact absurd h (by simp [findDelim])
  | a :: b :: c :: d :: rest =>
    intro i h
    rw [findDelim] at h
    by_cases hd : a = '\r' ∧ b = '\n' ∧ c = '\r' ∧ d = '\n'
    · rw [if_pos hd] at h
      injection h with h
      subst h
      simp
    · rw [if_neg hd] at h
      cases hf : findDelim (b :: c :: d :: rest) with
      | none => rw [hf] at h; simp at h
      | some j =>
        rw [hf] at h
        simp at h
        have := findDelim_bound (b :: c :: d :: rest) j hf
        simp at this ⊢
        omega

/-- One iteration of the stdout `while` loop (tsgo-backend.ts lines
231-253): locate the first `"\r\n\r\n"`, parse the headers before it and
their `Content-Length` (missing ⇒ `"0"`, non-numeric ⇒ `NaN`, modelled
`none`, which makes the `>=` comparison false); when the buffer holds
header plus body in full, emit the body and keep the remainder; otherwise
stop and retain the whole buffer. -/
def drainStep (buf : List Char) : Option (List Char × List Char) :=
  match findDelim buf with
  | none => none
  | some i =>
    match contentLenOf (buf.take i) with
    | none => none
    | some n =>
      if i + 4 + n ≤ buf.length then
        some ((buf.drop (i + 4)).take n, buf.drop (i + 4 + n))
      else none

theorem drainStep_shrinks {buf c : List Char} {rest : List Char}
    (h : drainStep buf = some (c, rest)) : rest.length < buf.length := by
  unfold drainStep at h
  cases hf : findDelim buf with
  | none => rw [hf] at h; simp at h
  | some i =>
    rw [hf] at h
    dsimp only at h
    cases hc : contentLenOf (buf.take i) with
    | none => rw [hc] at h; simp at h
    | some n =>
      rw [hc] at h
      dsimp only at h
      by_cases hle : i + 4 + n ≤ buf.length
      · rw [if_pos hle] at h
        injection h with h
        injection h with h1 h2
        subst h2
        simp
        omega
      · rw [if_neg hle] at h
        simp at h

/-- The fuelled drain loop; `drain` runs it with fuel `buf.length`, which
always suffices because every emitted message consumes at least the four
delimiter characters. -/
def drainF : Nat → List Char → List (List Char) × List Char
  | 0, buf => ([], buf)
  | fuel + 1, buf =>
    match drainStep buf with
    | none => ([], buf)
    | some (c, rest) =>
      let p := drainF fuel rest
      (c :: p.1, p.2)

/-- The full `while` loop over the accumulated buffer: the list of emitted
message bodies and the retained remainder. -/
def drain (buf : List Char) : List (List Char) × List Char := drainF buf.length buf

theorem drainF_congr : ∀ (f : Nat) (buf : List Char) (g : Nat),
    buf.length ≤ f → buf.length ≤ g → drainF f buf = drainF g buf := by
  intro f
  induction f with
  | zero =>
    intro buf g hf _
    have : buf = [] := by
      cases buf with
      | nil => rfl
      | cons a l => simp at hf
    subst this
    cases g with
    | zero => rfl
    | succ g => rfl
  | succ f ih =>
    intro buf g hf hg
    cases g with
    | zero =>
      have : buf = [] := by
        cases buf with
        | nil => rfl
        | cons a l => simp at hg
      subst this
      rfl
    | succ g =>
      show drainF (f + 1) buf = drainF (g + 1) buf
      rw [drainF, drainF]
      cases hs : drainStep buf with
      | none => rfl
      | some p =>
        obtain ⟨c, rest⟩ := p
        have hlt := drainStep_shrinks hs
        simp only
        rw [ih rest g (by omega) (by omega)]

theorem drain_eq_none {buf : List Char} (h : drainStep buf = none) :
    drain buf = ([], buf) := by
  unfold drain
  cases hl : buf.length with
  | zero => rfl
  | succ n => rw [drainF, h]

theorem drain_eq_some {buf c rest : List Char}
    (h : drainStep buf = some (c, rest)) :
    drain buf = (c :: (drain rest).1, (drain rest).2) := by
  have hlt := drainStep_shrinks h
  unfold drain
  obtain ⟨m, hm⟩ : ∃ m, buf.length = m + 1 := ⟨buf.length - 1, by omega⟩
  rw [hm, drainF, h]
  simp only
  rw [drainF_congr m rest rest.length (by omega) (le_refl _)]

theorem findDelim_append : ∀ {a : List Char} {i : Nat}, findDelim a = some i →
    ∀ b, findDelim (a ++ b) = some i := by
  intro a
  match a with
  | [] => intro i h; exact absurd h (by simp [findDelim])
  | [x] => intro i h; exact absurd h (by simp [findDelim])
  | [x, y] => intro i h; exact absurd h (by simp [findDelim])
  | [x, y, z] => intro i h; exact absurd h (by simp [findDelim])
  | x :: y :: z :: w :: rest =>
    intro i h b
    rw [findDelim] at h
    show findDelim (x :: y :: z :: w :: (rest ++ b)) = some i
    rw [findDelim]
    by_cases hd : x = '\r' ∧ y = '\n' ∧ z = '\r' ∧ w = '\n'
    · rw [if_pos hd] at h ⊢
      exact h
    · rw [if_neg hd] at h ⊢
      cases hf : findDelim (y :: z :: w :: rest) with
      | none => rw [hf] at h; simp at h
      | some j =>
        rw [hf] at h
        simp at h
        have := findDelim_append (a := y :: z :: w :: rest) hf b
        rw [show (y :: z :: w :: rest) ++ b = y :: z :: w :: (rest ++ b) by simp] at this
        rw [this]
        simp [h]

theorem drainStep_append {a b c rest : List Char}
    (h : drainStep a = some (c, rest)) :
    drainStep (a ++ b) = some (c, rest ++ b) := by
  unfold drainStep at h ⊢
  cases hf : findDelim a with
  | none => rw [hf] at h; simp at h
  | some i =>
    rw [hf] at h
    dsimp only at h
    rw [findDelim_append hf b]
    dsimp only
    cases hc : contentLenOf (a.take i) with
    | none => rw [hc] at h; simp at h
    | some n =>
      rw [hc] at h
      dsimp only at h
      by_cases hle : i + 4 + n ≤ a.length
      · rw [if_pos hle] at h
        injection h with h
        injection h with h1 h2
        have htake : (a ++ b).take i = a.take i :=
          List.take_append_of_le_length (by omega)
        rw [htake, hc]
        dsimp only
        rw [if_pos (by simp; omega)]
        have hdrop : (a ++ b).drop (i + 4) = a.drop (i + 4) ++ b :=
          List.drop_append_of_le_length (by omega)
        have hbody : ((a ++ b).drop (i + 4)).take n = (a.drop (i + 4)).take n := by
          rw [hdrop]
          exact List.take_append_of_le_length (by simp; omega)
        have hrest : (a ++ b).drop (i + 4 + n) = a.drop (i + 4 + n) ++ b :=
          List.drop_append_of_le_length (by omega)
        rw [hbody, hrest, h1, h2]
      · rw [if_neg hle] at h
        simp at h

theorem drain_append_aux : ∀ (N : Nat) (a b : List Char), a.length ≤ N →
    drain (a ++ b) =
      ((drain a).1 ++ (drain ((drain a).2 ++ b)).1, (drain ((drain a).2 ++ b)).2) := by
  intro N
  induction N with
  | zero =>
    intro a b ha
    have : a = [] := by
      cases a with
      | nil => rfl
      | cons x l => simp at ha
    subst this
    have h0 : drain ([] : List Char) = ([], []) := rfl
    rw [h0]
    simp
  | succ N ih =>
    intro a b ha
    cases hs : drainStep a with
    | none =>
      rw [drain_eq_none hs]
      simp
    | some p =>
      obtain ⟨c, rest⟩ := p
      have h2 := drainStep_append (b := b) hs
      have hlen : rest.length ≤ N := by
        have := drainStep_shrinks hs
        omega
      rw [drain_eq_some h2, drain_eq_some hs, ih rest b hlen]
      simp

/-- Drained buffers are quiescent: the remainder that `drain` retains has
no further complete message. -/
theorem drain_left_none : ∀ (N : Nat) (buf : List Char), buf.length ≤ N →
    drainStep (drain buf).2 = none := by
  intro N
  induction N with
  | zero =>
    intro buf h
    have : buf = [] := by
      cases buf with
      | nil => rfl
      | cons x l => simp at h
    subst this
    rfl
  | succ N ih =>
    intro buf h
    cases hs : drainStep buf with
    | none =>
      rw [drain_eq_none hs]
      exact hs
    | some p =>
      obtain ⟨c, rest⟩ := p
      rw [drain_eq_some hs]
      have hlen : rest.length ≤ N := by
        have := drainStep_shrinks hs
        omega
      exact ih rest hlen

/-- Feeding the stdout chunks one at a time: the persistent `buffer`
accumulates (line 228) and the loop drains after every chunk. -/
def feedChunks (chunks : List (List Char)) : List (List Char) × List Char :=
  chunks.foldl
    (fun st ck => ((st.1 ++ (drain (st.2 ++ ck)).1 : List (List Char)),
      (drain (st.2 ++ ck)).2)) ([], [])

theorem feedChunks_foldl : ∀ (cs : List (List Char)) (ms : List (List Char))
    (buf : List Char), drainStep buf = none →
    cs.foldl (fun st ck => ((st.1 ++ (drain (st.2 ++ ck)).1 : List (List Char)),
        (drain (st.2 ++ ck)).2)) (ms, buf) =
      (ms ++ (drain (buf ++ cs.flatten)).1, (drain (buf ++ cs.flatten)).2) := by
  intro cs
  induction cs with
  | nil =>
    intro ms buf hq
    simp [drain_eq_none hq]
  | cons ck cs' ih =>
    intro ms buf hq
    rw [List.foldl_cons]
    dsimp only
    rw [ih (ms ++ (drain (buf ++ ck)).1) (drain (buf ++ ck)).2
      (drain_left_none (buf ++ ck).length _ (le_refl _))]
    have hjoin : buf ++ (ck :: cs').flatten = (buf ++ ck) ++ cs'.flatten := by
      simp
    rw [hjoin, drain_append_aux (buf ++ ck).length (buf ++ ck) cs'.flatten (le_refl _)]
    simp

/-- Chunk-boundary invariance: feeding any chunking of a byte stream
decodes exactly what feeding it in one piece decodes, with the same
retained remainder. -/
theorem feedChunks_eq_drain (cs : List (List Char)) :
    feedChunks cs = drain cs.flatten := by
  unfold feedChunks
  rw [feedChunks_foldl cs [] [] (by rfl)]
  simp

/-- The JSON value grammar of the message envelopes the bridge exchanges
(numbers are the non-negative integers the protocol ids and positions
use). -/
inductive Json where
  | jnull
  | jbool (b : Bool)
  | jnum (n : Nat)
  | jstr (s : List Char)
  | jarr (elems : List Json)
  | jobj (fields : List (List Char × Json))

/-- The `U+007B` brace, written by code point to keep it out of string
literals. -/
def obraceChar : Char := Char.ofNat 123

/-- The `U+007D` brace. -/
def cbraceChar : Char := Char.ofNat 125

mutual
/-- `JSON.stringify` on the canonical value grammar: insertion-order
fields, no whitespace, strings emitted verbatim (faithful exactly for
strings whose characters need no escaping — see `goodChar`). -/
def serJson : Json → List Char
  | .jnull => ['n', 'u', 'l', 'l']
  | .jbool true => ['t', 'r', 'u', 'e']
  | .jbool false => ['f', 'a', 'l', 's', 'e']
  | .jnum n => natToChars n
  | .jstr s => '"' :: s ++ ['"']
  | .jarr es => '[' :: serElems es ++ [']']
  | .jobj fs => obraceChar :: serFields fs ++ [cbraceChar]

/-- Comma-separated serialized elements. -/
def serElems : List Json → List Char
  | [] => []
  | [e] => serJson e
  | e :: e2 :: es => serJson e ++ ',' :: serElems (e2 :: es)

/-- Comma-separated serialized `"key":value` fields. -/
def serFields : List (List Char × Json) → List Char
  | [] => []
  | [(k, v)] => '"' :: k ++ '"' :: ':' :: serJson v
  | (k, v) :: f2 :: fs =>
    ('"' :: k ++ '"' :: ':' :: serJson v) ++ ',' :: serFields (f2 :: fs)
end

/-- A character `JSON.stringify` emits verbatim inside a string literal:
printable ASCII that needs no escaping. -/
def goodChar (c : Char) : Bool :=
  decide (32 ≤ c.toNat) && decide (c.toNat ≤ 126) && (c != '"') && (c != '\\')

mutual
/-- The values on which `serJson` agrees with `JSON.stringify`. -/
def wfJson : Json → Bool
  | .jnull => true
  | .jbool _ => true
  | .jnum _ => true
  | .jstr s => s.all goodChar
  | .jarr es => wfElems es
  | .jobj fs => wfFields fs

def wfElems : List Json → Bool
  | [] => true
  | e :: es => wfJson e && wfElems es

def wfFields : List (List Char × Json) → Bool
  | [] => true
  | (k, v) :: fs => k.all goodChar && wfJson v && wfFields fs
end

mutual
/-- Fuel amply sufficient to parse the serialization of a value. -/
def jsonFuel : Json → Nat
  | .jnull => 1
  | .jbool _ => 1
  | .jnum _ => 1
  | .jstr _ => 1
  | .jarr es => elemsFuel es + 1
  | .jobj fs => fieldsFuel fs + 1

def elemsFuel : List Json → Nat
  | [] => 1
  | [e] => jsonFuel e + 1
  | e :: e2 :: es => jsonFuel e + elemsFuel (e2 :: es) + 1

def fieldsFuel : List (List Char × Json) → Nat
  | [] => 1
  | [(_, v)] => jsonFuel v + 1
  | (_, v) :: f2 :: fs => jsonFuel v + fieldsFuel (f2 :: fs) + 1
end

/-- Split at the first `'"'`. -/
def takeUntilQuote : List Char → Option (List Char × List Char)
  | [] => none
  | c :: rest =>
    if c = '"' then some ([], rest)
    else match takeUntilQuote rest with
      | some (s, r) => some (c :: s, r)
      | none => none

/-- Consume an expected literal keyword tail, or fail. -/
def dropLit : List Char → List Char → Option (List Char)
  | [], l => some l
  | _ :: _, [] => none
  | e :: es, c :: cs => if c = e then dropLit es cs else none

mutual
/-- A recursive-descent parser for the canonical grammar — the model of
`JSON.parse` on the texts this bridge exchanges.  Fuelled so that it is
structurally recursive and evaluates in the kernel. -/
def parseJF : Nat → List Char → Option (Json × List Char)
  | 0, _ => none
  | _ + 1, [] => none
  | fuel + 1, c :: rest =>
    if c = 'n' then
      match dropLit ['u', 'l', 'l'] rest with
      | some r => some (.jnull, r)
      | none => none
    else if c = 't' then
      match dropLit ['r', 'u', 'e'] rest with
      | some r => some (.jbool true, r)
      | none => none
    else if c = 'f' then
      match dropLit ['a', 'l', 's', 'e'] rest with
      | some r => some (.jbool false, r)
      | none => none
    else if c = '"' then
      match takeUntilQuote rest with
      | some (s, r) => some (.jstr s, r)
      | none => none
    else if c = '[' then
      if rest.head? = some ']' then some (.jarr [], rest.tail)
      else
        match parseEF fuel rest with
        | some (es, r2) =>
          if r2.head? = some ']' then some (.jarr es, r2.tail) else none
        | none => none
    else if c = obraceChar then
      if rest.head? = some cbraceChar then some (.jobj [], rest.tail)
      else
        match parseFF fuel rest with
        | some (fs, r2) =>
          if r2.head? = some cbraceChar then some (.jobj fs, r2.tail) else none
        | none => none
    else if isDigitCh c then
      some (.jnum (parseDigits (c :: rest) 0).1, (parseDigits (c :: rest) 0).2)
    else none

def parseEF : Nat → List Char → Option (List Json × List Char)
  | 0, _ => none
  | fuel + 1, l =>
    match parseJF fuel l with
    | none => none
    | some (j, r) =>
      if r.head? = some ',' then
        match parseEF fuel r.tail with
        | some (es, r3) => some (j :: es, r3)
        | none => none
      else some ([j], r)

def parseFF : Nat → List Char → Option (List (List Char × Json) × List Char)
  | 0, _ => none
  | _ + 1, [] => none
  | fuel + 1, c :: rest =>
    if c = '"' then
      match takeUntilQuote rest with
      | some (k, r1) =>
        if r1.head? = some ':' then
          match parseJF fuel r1.tail with
          | some (v, r3) =>
            if r3.head? = some ',' then
              match parseFF fuel r3.tail with
              | some (fs, r5) => some ((k, v) :: fs, r5)
              | none => none
            else some ([(k, v)], r3)
          | none => none
        else none
      | none => none
    else none
end

/-- `JSON.parse(content)` for a full message body: the parse must consume
the body entirely; `none` is the thrown-and-logged parse error of lines
244-249. -/
def parseContent (content : List Char) : Option Json :=
  match parseJF (content.length + 1) content with
  | some (j, []) => some j
  | _ => none

theorem goodChar_spec {c : Char} (h : goodChar c = true) :
    32 ≤ c.toNat ∧ c.toNat ≤ 126 ∧ c ≠ '"' ∧ c ≠ '\\' := by
  unfold goodChar at h
  simp only [Bool.and_eq_true, decide_eq_true_eq, bne_iff_ne] at h
  exact ⟨h.1.1.1, h.1.1.2, h.1.2, h.2⟩

theorem takeUntilQuote_clean : ∀ {s : List Char}, (∀ c ∈ s, c ≠ '"') →
    ∀ (r : List Char), takeUntilQuote (s ++ '"' :: r) = some (s, r) := by
  intro s
  induction s with
  | nil =>
    intro _ r
    rw [List.nil_append, takeUntilQuote, if_pos rfl]
  | cons c s' ih =>
    intro h r
    rw [List.cons_append, takeUntilQuote, if_neg (h c (by simp)),
      ih (fun x hx => h x (by simp [hx])) r]

theorem isDigit_ne {c : Char} (h : isDigitCh c = true) :
    c ≠ 'n' ∧ c ≠ 't' ∧ c ≠ 'f' ∧ c ≠ '"' ∧ c ≠ '[' ∧ c ≠ obraceChar ∧
    c ≠ ']' ∧ c ≠ ',' ∧ c ≠ cbraceChar ∧ c ≠ ':' := by
  refine ⟨?_, ?_, ?_, ?_, ?_, ?_, ?_, ?_, ?_, ?_⟩ <;>
    (intro hc; subst hc; exact absurd h (by decide))

theorem serJson_head_ne_rbracket (j : Json) :
    ∃ c cs, serJson j = c :: cs ∧ c ≠ ']' := by
  cases j with
  | jnull => exact ⟨'n', _, rfl, by decide⟩
  | jbool b => cases b with
    | true => exact ⟨'t', _, rfl, by decide⟩
    | false => exact ⟨'f', _, rfl, by decide⟩
  | jnum n =>
    obtain ⟨hne, hdig⟩ := natToChars_ne_nil_digits n
    cases hc : natToChars n with
    | nil => exact absurd hc hne
    | cons c cs =>
      have hd : isDigitCh c = true := hdig c (by rw [hc]; simp)
      exact ⟨c, cs, by simp [serJson, hc], (isDigit_ne hd).2.2.2.2.2.2.1⟩
  | jstr s => exact ⟨'"', _, rfl, by decide⟩
  | jarr es => exact ⟨'[', _, rfl, by decide⟩
  | jobj fs => exact ⟨obraceChar, _, rfl, by decide⟩

theorem serFields_head (p : List Char × Json) (fs : List (List Char × Json)) :
    ∃ t, serFields (p :: fs) = '"' :: t := by
  obtain ⟨k, v⟩ := p
  cases fs with
  | nil => exact ⟨_, rfl⟩
  | cons f2 fs' =>
    exact ⟨k ++ '"' :: ':' :: (serJson v ++ ',' :: serFields (f2 :: fs')),
      by rw [serFields]; simp⟩

theorem serElems_head (e : Json) (es : List Json) :
    ∃ t, serElems (e :: es) = serJson e ++ t := by
  cases es with
  | nil => exact ⟨[], by rw [serElems, List.append_nil]⟩
  | cons e2 es' => exact ⟨',' :: serElems (e2 :: es'), rfl⟩

theorem rb_ne_comma : ¬((some ']' : Option Char) = some ',') := by decide

theorem cb_ne_comma : ¬((some cbraceChar : Option Char) = some ',') := by decide

theorem parse_ser_aux : ∀ f : Nat,
    (∀ j rest, wfJson j = true → headNotDigit rest = true → jsonFuel j ≤ f →
      parseJF f (serJson j ++ rest) = some (j, rest)) ∧
    (∀ es rest, wfElems es = true → es ≠ [] → elemsFuel es ≤ f →
      parseEF f (serElems es ++ ']' :: rest) = some (es, ']' :: rest)) ∧
    (∀ fs rest, wfFields fs = true → fs ≠ [] → fieldsFuel fs ≤ f →
      parseFF f (serFields fs ++ cbraceChar :: rest) = some (fs, cbraceChar :: rest)) := by
  intro f
  induction f using Nat.strong_induction_on with
  | _ f IH =>
  refine ⟨?_, ?_, ?_⟩
  · -- values
    intro j rest hwf hrest hfuel
    have hf1 : 1 ≤ jsonFuel j := by cases j <;> simp [jsonFuel]
    cases f with
    | zero => omega
    | succ g =>
    cases j with
    | jnull =>
      show parseJF (g + 1) ('n' :: 'u' :: 'l' :: 'l' :: rest) = _
      rw [parseJF, if_pos rfl]
      rfl
    | jbool b =>
      cases b with
      | true =>
        show parseJF (g + 1) ('t' :: 'r' :: 'u' :: 'e' :: rest) = _
        rw [parseJF, if_neg (by decide), if_pos rfl]
        rfl
      | false =>
        show parseJF (g + 1) ('f' :: 'a' :: 'l' :: 's' :: 'e' :: rest) = _
        rw [parseJF, if_neg (by decide), if_neg (by decide), if_pos rfl]
        rfl
    | jnum n =>
      obtain ⟨hne, hdig⟩ := natToChars_ne_nil_digits n
      cases hc : natToChars n with
      | nil => exact absurd hc hne
      | cons d ds =>
        have hd : isDigitCh d = true := hdig d (by rw [hc]; simp)
        obtain ⟨n1, n2, n3, n4, n5, n6, _⟩ := isDigit_ne hd
        have heq : serJson (.jnum n) ++ rest = d :: (ds ++ rest) := by
          simp [serJson, hc]
        rw [heq, parseJF, if_neg n1, if_neg n2, if_neg n3, if_neg n4, if_neg n5,
          if_neg n6, if_pos hd]
        have hpd : parseDigits (d :: (ds ++ rest)) 0 = (n, rest) := by
          have h2 := parseDigits_roundtrip n rest hrest
          rw [hc] at h2
          simpa using h2
        rw [hpd]
    | jstr s =>
      have hq : ∀ c ∈ s, c ≠ '"' := by
        intro c hc
        rw [wfJson] at hwf
        exact (goodChar_spec (by simpa using List.all_eq_true.mp hwf c hc)).2.2.1
      have heq : serJson (.jstr s) ++ rest = '"' :: (s ++ '"' :: rest) := by
        simp [serJson]
      rw [heq, parseJF, if_neg (by decide), if_neg (by decide), if_neg (by decide),
        if_pos rfl, takeUntilQuote_clean hq rest]
    | jarr es =>
      cases es with
      | nil =>
        have heq : serJson (.jarr []) ++ rest = '[' :: ']' :: rest := by
          simp [serJson, serElems]
        rw [heq, parseJF, if_neg (by decide), if_neg (by decide), if_neg (by decide),
          if_neg (by decide), if_pos rfl]
        simp
      | cons e es' =>
        have heq : serJson (.jarr (e :: es')) ++ rest =
            '[' :: (serElems (e :: es') ++ ']' :: rest) := by
          simp [serJson]
        rw [heq, parseJF, if_neg (by decide), if_neg (by decide), if_neg (by decide),
          if_neg (by decide), if_pos rfl]
        obtain ⟨t, hser⟩ := serElems_head e es'
        obtain ⟨c0, cs0, hje, hc0⟩ := serJson_head_ne_rbracket e
        have hhead : (serElems (e :: es') ++ ']' :: rest).head? ≠ some ']' := by
          rw [hser, hje]
          simp [hc0]
        rw [if_neg hhead]
        have hwfe : wfElems (e :: es') = true := by rw [wfJson] at hwf; exact hwf
        have hfe : elemsFuel (e :: es') ≤ g := by
          rw [jsonFuel] at hfuel; omega
        have hEF := (IH g (by omega)).2.1 (e :: es') rest hwfe (by simp) hfe
        rw [hEF]
        simp
    | jobj fs =>
      cases fs with
      | nil =>
        have heq : serJson (.jobj []) ++ rest = obraceChar :: cbraceChar :: rest := by
          simp [serJson, serFields]
        rw [heq, parseJF, if_neg (by decide), if_neg (by decide), if_neg (by decide),
          if_neg (by decide), if_neg (by decide), if_pos rfl]
        simp
      | cons p fs' =>
        have heq : serJson (.jobj (p :: fs')) ++ rest =
            obraceChar :: (serFields (p :: fs') ++ cbraceChar :: rest) := by
          simp [serJson]
        rw [heq, parseJF, if_neg (by decide), if_neg (by decide), if_neg (by decide),
          if_neg (by decide), if_neg (by decide), if_pos rfl]
        obtain ⟨t, hser⟩ := serFields_head p fs'
        have hhead : (serFields (p :: fs') ++ cbraceChar :: rest).head? ≠
            some cbraceChar := by
          rw [hser]
          simp
          decide
        rw [if_neg hhead]
        have hwff : wfFields (p :: fs') = true := by rw [wfJson] at hwf; exact hwf
        have hff : fieldsFuel (p :: fs') ≤ g := by
          rw [jsonFuel] at hfuel; omega
        have hFF := (IH g (by omega)).2.2 (p :: fs') rest hwff (by simp) hff
        rw [hFF]
        simp
  · -- elements
    intro es rest hwf hne hfuel
    cases es with
    | nil => exact absurd rfl hne
    | cons e es' =>
    have hf1 : 1 ≤ elemsFuel (e :: es') := by
      cases es' <;> simp [elemsFuel]
    cases f with
    | zero => omega
    | succ g =>
    rw [parseEF]
    have hwfe : wfJson e = true := by
      rw [wfElems] at hwf
      simp only [Bool.and_eq_true] at hwf
      exact hwf.1
    cases es' with
    | nil =>
      have hfe : jsonFuel e ≤ g := by rw [elemsFuel] at hfuel; omega
      have hJ := (IH g (by omega)).1 e (']' :: rest) hwfe (by rw [headNotDigit]; decide) hfe
      have hl : serElems [e] ++ ']' :: rest = serJson e ++ ']' :: rest := by
        rw [serElems]
      rw [hl, hJ]
      dsimp only
      rw [List.head?_cons, if_neg rb_ne_comma]
    | cons e2 es'' =>
      have hfe : jsonFuel e ≤ g ∧ elemsFuel (e2 :: es'') ≤ g := by
        rw [elemsFuel] at hfuel
        have h1 : 1 ≤ jsonFuel e := by cases e <;> simp [jsonFuel]
        have h2 : 1 ≤ elemsFuel (e2 :: es'') := by
          cases es'' <;> simp [elemsFuel]
        omega
      have hl : serElems (e :: e2 :: es'') ++ ']' :: rest =
          serJson e ++ (',' :: (serElems (e2 :: es'') ++ ']' :: rest)) := by
        rw [serElems]
        simp
      have hJ := (IH g (by omega)).1 e (',' :: (serElems (e2 :: es'') ++ ']' :: rest))
        hwfe (by rw [headNotDigit]; decide) hfe.1
      rw [hl, hJ]
      have hwfe2 : wfElems (e2 :: es'') = true := by
        rw [wfElems] at hwf
        simp only [Bool.and_eq_true] at hwf
        exact hwf.2
      have hEF := (IH g (by omega)).2.1 (e2 :: es'') rest hwfe2 (by simp) hfe.2
      dsimp only
      rw [List.head?_cons, if_pos rfl, List.tail_cons, hEF]
  · -- fields
    intro fs rest hwf hne hfuel
    cases fs with
    | nil => exact absurd rfl hne
    | cons p fs' =>
    obtain ⟨k, v⟩ := p
    have hf1 : 1 ≤ fieldsFuel ((k, v) :: fs') := by
      cases fs' <;> simp [fieldsFuel]
    cases f with
    | zero => omega
    | succ g =>
    rw [wfFields] at hwf
    simp only [Bool.and_eq_true] at hwf
    have hwfk : ∀ c ∈ k, c ≠ '"' := by
      intro c hc
      exact (goodChar_spec (by simpa using List.all_eq_true.mp hwf.1.1 c hc)).2.2.1
    have hwfv : wfJson v = true := hwf.1.2
    cases fs' with
    | nil =>
      have hl : serFields [(k, v)] ++ cbraceChar :: rest =
          '"' :: (k ++ '"' :: (':' :: (serJson v ++ cbraceChar :: rest))) := by
        rw [serFields]
        simp
      rw [hl, parseFF, if_pos rfl, takeUntilQuote_clean hwfk]
      have hfv : jsonFuel v ≤ g := by rw [fieldsFuel] at hfuel; omega
      have hJ := (IH g (by omega)).1 v (cbraceChar :: rest) hwfv
        (by rw [headNotDigit]; decide) hfv
      dsimp only
      rw [List.head?_cons, if_pos rfl, List.tail_cons, hJ]
      dsimp only
      rw [List.head?_cons, if_neg cb_ne_comma]
    | cons f2 fs'' =>
      have hfv : jsonFuel v ≤ g ∧ fieldsFuel (f2 :: fs'') ≤ g := by
        rw [fieldsFuel] at hfuel
        have h1 : 1 ≤ jsonFuel v := by cases v <;> simp [jsonFuel]
        have h2 : 1 ≤ fieldsFuel (f2 :: fs'') := by
          cases fs'' with
          | nil =>
            obtain ⟨k2, v2⟩ := f2
            simp [fieldsFuel]
          | cons f3 fs3 =>
            obtain ⟨k2, v2⟩ := f2
            simp [fieldsFuel]
        omega
      have hl : serFields ((k, v) :: f2 :: fs'') ++ cbraceChar :: rest =
          '"' :: (k ++ '"' :: (':' :: (serJson v ++
            ',' :: (serFields (f2 :: fs'') ++ cbraceChar :: rest)))) := by
        rw [serFields]
        simp
      rw [hl, parseFF, if_pos rfl, takeUntilQuote_clean hwfk]
      have hJ := (IH g (by omega)).1 v
        (',' :: (serFields (f2 :: fs'') ++ cbraceChar :: rest)) hwfv (by rw [headNotDigit]; decide) hfv.1
      dsimp only
      rw [List.head?_cons, if_pos rfl, List.tail_cons, hJ]
      have hwff2 : wfFields (f2 :: fs'') = true := hwf.2
      have hFF := (IH g (by omega)).2.2 (f2 :: fs'') rest hwff2 (by simp) hfv.2
      dsimp only
      rw [List.head?_cons, if_pos rfl, List.tail_cons, hFF]

theorem digit_ne_crlf {c : Char} (h : isDigitCh c = true) :
    c ≠ '\r' ∧ c ≠ '\n' := by
  refine ⟨?_, ?_⟩ <;> (intro hc; subst hc; exact absurd h (by decide))

theorem digit_lt128 {c : Char} (h : isDigitCh c = true) : c.toNat < 128 := by
  simp only [isDigitCh, Bool.and_eq_true, decide_eq_true_eq] at h
  omega

theorem serJson_ascii_aux : ∀ n : Nat,
    (∀ j, jsonFuel j ≤ n → wfJson j = true → ∀ c ∈ serJson j, c.toNat < 128) ∧
    (∀ es, elemsFuel es ≤ n → wfElems es = true →
      ∀ c ∈ serElems es, c.toNat < 128) ∧
    (∀ fs, fieldsFuel fs ≤ n → wfFields fs = true →
      ∀ c ∈ serFields fs, c.toNat < 128) := by
  intro n
  induction n using Nat.strong_induction_on with
  | _ n IH =>
  refine ⟨?_, ?_, ?_⟩
  · intro j hn hwf c hc
    cases j with
    | jnull =>
      simp only [serJson, List.mem_cons, List.not_mem_nil, or_false] at hc
      rcases hc with rfl | rfl | rfl | rfl <;> decide
    | jbool b =>
      cases b <;>
        simp only [serJson, List.mem_cons, List.not_mem_nil, or_false] at hc
      · rcases hc with rfl | rfl | rfl | rfl | rfl <;> decide
      · rcases hc with rfl | rfl | rfl | rfl <;> decide
    | jnum m =>
      rw [serJson] at hc
      exact digit_lt128 ((natToChars_ne_nil_digits m).2 c hc)
    | jstr s =>
      rw [serJson] at hc
      simp only [List.mem_cons, List.mem_append, List.not_mem_nil, or_false] at hc
      rcases hc with (rfl | hc) | rfl
      · decide
      · rw [wfJson] at hwf
        exact lt_of_le_of_lt
          (goodChar_spec (by simpa using List.all_eq_true.mp hwf c hc)).2.1
          (by omega)
      · decide
    | jarr es =>
      rw [serJson] at hc
      simp only [List.mem_cons, List.mem_append, List.not_mem_nil, or_false] at hc
      rcases hc with (rfl | hc) | rfl
      · decide
      · rw [jsonFuel] at hn
        rw [wfJson] at hwf
        exact (IH (elemsFuel es) (by omega)).2.1 es (le_refl _) hwf c hc
      · decide
    | jobj fs =>
      rw [serJson] at hc
      simp only [List.mem_cons, List.mem_append, List.not_mem_nil, or_false] at hc
      rcases hc with (rfl | hc) | rfl
      · decide
      · rw [jsonFuel] at hn
        rw [wfJson] at hwf
        exact (IH (fieldsFuel fs) (by omega)).2.2 fs (le_refl _) hwf c hc
      · decide
  · intro es hn hwf c hc
    cases es with
    | nil => rw [serElems] at hc; exact absurd hc (List.not_mem_nil c)
    | cons e es' =>
      rw [wfElems] at hwf
      simp only [Bool.and_eq_true] at hwf
      cases es' with
      | nil =>
        rw [serElems] at hc
        rw [elemsFuel] at hn
        exact (IH (jsonFuel e) (by omega)).1 e (le_refl _) hwf.1 c hc
      | cons e2 es'' =>
        rw [serElems] at hc
        rw [elemsFuel] at hn
        have h1 : 1 ≤ elemsFuel (e2 :: es'') := by
          cases es'' <;> simp [elemsFuel]
        simp only [List.mem_append, List.mem_cons] at hc
        rcases hc with hc | rfl | hc
        · exact (IH (jsonFuel e) (by omega)).1 e (le_refl _) hwf.1 c hc
        · decide
        · exact (IH (elemsFuel (e2 :: es'')) (by omega)).2.1 (e2 :: es'')
            (le_refl _) hwf.2 c hc
  · intro fs hn hwf c hc
    cases fs with
    | nil => rw [serFields] at hc; exact absurd hc (List.not_mem_nil c)
    | cons p fs' =>
      obtain ⟨k, v⟩ := p
      rw [wfFields] at hwf
      simp only [Bool.and_eq_true] at hwf
      have hkc : ∀ c ∈ k, c.toNat < 128 := by
        intro x hx
        exact lt_of_le_of_lt
          (goodChar_spec (by simpa using List.all_eq_true.mp hwf.1.1 x hx)).2.1
          (by omega)
      cases fs' with
      | nil =>
        rw [serFields] at hc
        rw [fieldsFuel] at hn
        simp only [List.mem_cons, List.mem_append] at hc
        rcases hc with (rfl | hc) | rfl | rfl | hc
        · decide
        · exact hkc c hc
        · decide
        · decide
        · exact (IH (jsonFuel v) (by omega)).1 v (le_refl _) hwf.1.2 c hc
      | cons f2 fs'' =>
        rw [serFields] at hc
        rw [fieldsFuel] at hn
        have h1 : 1 ≤ fieldsFuel (f2 :: fs'') := by
          obtain ⟨k2, v2⟩ := f2
          cases fs'' <;> simp [fieldsFuel]
        simp only [List.mem_append, List.mem_cons] at hc
        rcases hc with ((rfl | hc) | rfl | rfl | hc) | rfl | hc
        · decide
        · exact hkc c hc
        · decide
        · decide
        · exact (IH (jsonFuel v) (by omega)).1 v (le_refl _) hwf.1.2 c hc
        · decide
        · exact (IH (fieldsFuel (f2 :: fs'')) (by omega)).2.2 (f2 :: fs'')
            (le_refl _) hwf.2 c hc

theorem serJson_ascii {j : Json} (hwf : wfJson j = true) :
    ∀ c ∈ serJson j, c.toNat < 128 :=
  (serJson_ascii_aux (jsonFuel j)).1 j (le_refl _) hwf

theorem serJson_fuel_aux : ∀ n : Nat,
    (∀ j, jsonFuel j ≤ n → jsonFuel j ≤ (serJson j).length) ∧
    (∀ es, elemsFuel es ≤ n → elemsFuel es ≤ (serElems es).length + 1) ∧
    (∀ fs, fieldsFuel fs ≤ n → fieldsFuel fs ≤ (serFields fs).length + 1) := by
  intro n
  induction n using Nat.strong_induction_on with
  | _ n IH =>
  refine ⟨?_, ?_, ?_⟩
  · intro j hn
    cases j with
    | jnull => simp [jsonFuel, serJson]
    | jbool b => cases b <;> simp [jsonFuel, serJson]
    | jnum m =>
      rw [jsonFuel, serJson]
      have := (natToChars_ne_nil_digits m).1
      cases hm : natToChars m with
      | nil => exact absurd hm this
      | cons d ds => simp
    | jstr s => simp [jsonFuel, serJson]
    | jarr es =>
      rw [jsonFuel] at hn ⊢
      rw [serJson]
      have h2 := (IH (elemsFuel es) (by omega)).2.1 es (le_refl _)
      simp only [List.length_cons, List.length_append, List.length_singleton]
      omega
    | jobj fs =>
      rw [jsonFuel] at hn ⊢
      rw [serJson]
      have h2 := (IH (fieldsFuel fs) (by omega)).2.2 fs (le_refl _)
      simp only [List.length_cons, List.length_append, List.length_singleton]
      omega
  · intro es hn
    cases es with
    | nil => simp [elemsFuel, serElems]
    | cons e es' =>
      cases es' with
      | nil =>
        rw [elemsFuel] at hn ⊢
        rw [serElems]
        have h1 := (IH (jsonFuel e) (by omega)).1 e (le_refl _)
        omega
      | cons e2 es'' =>
        rw [elemsFuel] at hn ⊢
        rw [serElems]
        have hp : 1 ≤ elemsFuel (e2 :: es'') := by
          cases es'' <;> simp [elemsFuel]
        have h1 := (IH (jsonFuel e) (by omega)).1 e (le_refl _)
        have h2 := (IH (elemsFuel (e2 :: es'')) (by omega)).2.1 (e2 :: es'')
          (le_refl _)
        simp only [List.length_append, List.length_cons]
        omega
  · intro fs hn
    cases fs with
    | nil => simp [fieldsFuel, serFields]
    | cons p fs' =>
      obtain ⟨k, v⟩ := p
      cases fs' with
      | nil =>
        rw [fieldsFuel] at hn ⊢
        rw [serFields]
        have h1 := (IH (jsonFuel v) (by omega)).1 v (le_refl _)
        simp only [List.length_cons, List.length_append]
        omega
      | cons f2 fs'' =>
        rw [fieldsFuel] at hn ⊢
        rw [serFields]
        have hp : 1 ≤ fieldsFuel (f2 :: fs'') := by
          obtain ⟨k2, v2⟩ := f2
          cases fs'' <;> simp [fieldsFuel]
        have h1 := (IH (jsonFuel v) (by omega)).1 v (le_refl _)
        have h2 := (IH (fieldsFuel (f2 :: fs'')) (by omega)).2.2 (f2 :: fs'')
          (le_refl _)
        simp only [List.length_append, List.length_cons]
        omega

theorem parse_serJson {j : Json} (hwf : wfJson j = true) :
    parseContent (serJson j) = some j := by
  have hfuel : jsonFuel j ≤ (serJson j).length + 1 := by
    have := (serJson_fuel_aux (jsonFuel j)).1 j (le_refl _)
    omega
  have h1 := (parse_ser_aux ((serJson j).length + 1)).1 j [] hwf rfl hfuel
  rw [List.append_nil] at h1
  unfold parseContent
  rw [h1]

/-- `sendMessage` (tsgo-backend.ts lines 350-361): the wire frame
`Content-Length: ${Buffer.byteLength(content)}\r\n\r\n` + content. -/
def encodeFrame (content : List Char) : List Char :=
  clHeaderName ++ ':' :: ' ' :: natToChars (byteLen content) ++
    '\r' :: '\n' :: '\r' :: '\n' :: content

theorem contentLen_header (n : Nat) :
    contentLenOf (clHeaderName ++ ':' :: ' ' :: natToChars n) = some n := by
  obtain ⟨hne, hdig⟩ := natToChars_ne_nil_digits n
  have hnosep : splitStr2 '\r' '\n' (clHeaderName ++ ':' :: ' ' :: natToChars n) =
      [clHeaderName ++ ':' :: ' ' :: natToChars n] := by
    apply splitStr2_no_sep
    intro c hc
    simp only [List.mem_append, List.mem_cons] at hc
    rcases hc with hc | rfl | rfl | hc
    · revert hc
      revert c
      decide
    · decide
    · decide
    · exact (digit_ne_crlf (hdig c hc)).1
  have hkv : splitStr2 ':' ' ' (clHeaderName ++ ':' :: ' ' :: natToChars n) =
      [clHeaderName, natToChars n] := by
    apply splitStr2_key_value
    · intro c hc
      revert hc
      revert c
      decide
    · intro c hc
      exact (isDigit_ne (hdig c hc)).2.2.2.2.2.2.2.2.2
  unfold contentLenOf parseHeaders
  rw [hnosep, List.foldl_cons, hkv]
  dsimp only
  rw [if_pos ⟨by decide, hne⟩, List.foldl_nil]
  unfold lookupHeader
  rw [List.find?_cons_of_pos _ (by
    simp only [decide_eq_true_eq]
    decide)]
  exact parseIntLeading_natToChars n

theorem drainStep_encodeFrame (s X : List Char)
    (hascii : ∀ c ∈ s, c.toNat < 128) :
    drainStep (encodeFrame s ++ X) = some (s, X) := by
  have hlen : byteLen s = s.length := byteLen_eq_length hascii
  have hre : encodeFrame s ++ X =
      (clHeaderName ++ ':' :: ' ' :: natToChars (byteLen s)) ++
        '\r' :: '\n' :: '\r' :: '\n' :: (s ++ X) := by
    simp [encodeFrame]
  have hnocr : ∀ c ∈ clHeaderName ++ ':' :: ' ' :: natToChars (byteLen s),
      c ≠ '\r' := by
    intro c hc
    simp only [List.mem_append, List.mem_cons] at hc
    rcases hc with hc | rfl | rfl | hc
    · revert hc
      revert c
      decide
    · decide
    · decide
    · exact (digit_ne_crlf ((natToChars_ne_nil_digits _).2 c hc)).1
  rw [hre]
  unfold drainStep
  rw [findDelim_front hnocr (s ++ X)]
  dsimp only
  rw [List.take_append_of_le_length (le_refl _), List.take_length,
    contentLen_header]
  dsimp only
  have hblen : ((clHeaderName ++ ':' :: ' ' :: natToChars (byteLen s)) ++
      '\r' :: '\n' :: '\r' :: '\n' :: (s ++ X)).length =
      (clHeaderName ++ ':' :: ' ' :: natToChars (byteLen s)).length + 4 +
        s.length + X.length := by
    simp
    omega
  rw [if_pos (by rw [hblen]; omega)]
  have hdd : ((clHeaderName ++ ':' :: ' ' :: natToChars (byteLen s)) ++
      '\r' :: '\n' :: '\r' :: '\n' :: (s ++ X)).drop
        ((clHeaderName ++ ':' :: ' ' :: natToChars (byteLen s)).length + 4) =
      s ++ X := by
    have h2 : (clHeaderName ++ ':' :: ' ' :: natToChars (byteLen s)) ++
        '\r' :: '\n' :: '\r' :: '\n' :: (s ++ X) =
        ((clHeaderName ++ ':' :: ' ' :: natToChars (byteLen s)) ++
          ['\r', '\n', '\r', '\n']) ++ (s ++ X) := by
      simp
    rw [h2]
    have h3 : (clHeaderName ++ ':' :: ' ' :: natToChars (byteLen s)).length + 4 =
        ((clHeaderName ++ ':' :: ' ' :: natToChars (byteLen s)) ++
          ['\r', '\n', '\r', '\n']).length := by
      simp
      omega
    rw [h3, List.drop_left]
  have hdd2 : ((clHeaderName ++ ':' :: ' ' :: natToChars (byteLen s)) ++
      '\r' :: '\n' :: '\r' :: '\n' :: (s ++ X)).drop
        ((clHeaderName ++ ':' :: ' ' :: natToChars (byteLen s)).length + 4 +
          byteLen s) = X := by
    have h2 : (clHeaderName ++ ':' :: ' ' :: natToChars (byteLen s)) ++
        '\r' :: '\n' :: '\r' :: '\n' :: (s ++ X) =
        ((clHeaderName ++ ':' :: ' ' :: natToChars (byteLen s)) ++
          ['\r', '\n', '\r', '\n'] ++ s) ++ X := by
      simp
    rw [h2]
    have h3 : (clHeaderName ++ ':' :: ' ' :: natToChars (byteLen s)).length + 4 +
        byteLen s =
        ((clHeaderName ++ ':' :: ' ' :: natToChars (byteLen s)) ++
          ['\r', '\n', '\r', '\n'] ++ s).length := by
      simp [hlen]
      omega
    rw [h3, List.drop_left]
  rw [hdd, hdd2, hlen, List.take_append_of_le_length (le_refl _),
    List.take_length]

theorem drain_frames : ∀ (ss : List (List Char)),
    (∀ s ∈ ss, ∀ c ∈ s, c.toNat < 128) →
    drain (ss.map encodeFrame).flatten = (ss, []) := by
  intro ss
  induction ss with
  | nil => intro _; rfl
  | cons s ss' ih =>
    intro h
    have hs : drainStep (encodeFrame s ++ (ss'.map encodeFrame).flatten) =
        some (s, (ss'.map encodeFrame).flatten) :=
      drainStep_encodeFrame s _ (h s (by simp))
    have hflat : ((s :: ss').map encodeFrame).flatten =
        encodeFrame s ++ (ss'.map encodeFrame).flatten := by simp
    rw [hflat, drain_eq_some hs, ih (fun t ht => h t (by simp [ht]))]

/-- C7: with every serialized form ASCII (which the canonical well-formed
envelopes guarantee), framing round-trips — any chunking of the
concatenated frames of a message sequence drains exactly the original
bodies with nothing retained, and parsing each body recovers the
message. -/
theorem C7_framing_roundtrip (ms : List Json) (hwf : ∀ j ∈ ms, wfJson j = true)
    (cs : List (List Char))
    (hcs : cs.flatten = (ms.map (fun j => encodeFrame (serJson j))).flatten) :
    feedChunks cs = (ms.map serJson, []) ∧
      ∀ j ∈ ms, parseContent (serJson j) = some j := by
  constructor
  · rw [feedChunks_eq_drain, hcs]
    have hmm : ms.map (fun j => encodeFrame (serJson j)) =
        (ms.map serJson).map encodeFrame := by
      simp [List.map_map]
    rw [hmm, drain_frames]
    intro s hs
    simp only [List.mem_map] at hs
    obtain ⟨j, hj, rfl⟩ := hs
    exact serJson_ascii (hwf j hj)
  · intro j hj
    exact parse_serJson (hwf j hj)

/-- A message whose serialization is not pure ASCII: `JSON.stringify`
emits the accented character verbatim, so its byte length exceeds its
UTF-16 length. -/
def c7msgBad : Json := .jstr ['é']

theorem C7_counterexample :
    byteLen (serJson c7msgBad) ≠ (serJson c7msgBad).length ∧
      drain (encodeFrame (serJson c7msgBad)) =
        ([], encodeFrame (serJson c7msgBad)) := by
  constructor
  · decide
  · rfl

/-- A concrete well-formed envelope. -/
def c7msg : Json :=
  .jobj [(['i', 'd'], .jnum 42), (['o', 'k'], .jbool true),
    (['m', 's', 'g'], .jstr ['h', 'i']), (['p', 's'], .jarr [.jnull, .jnum 7])]

theorem C7_witness :
    feedChunks [(encodeFrame (serJson c7msg)).take 10,
        (encodeFrame (serJson c7msg)).drop 10] = ([serJson c7msg], []) ∧
      ∀ j ∈ [c7msg], parseContent (serJson j) = some j :=
  C7_framing_roundtrip [c7msg] (by decide)
    [(encodeFrame (serJson c7msg)).take 10, (encodeFrame (serJson c7msg)).drop 10]
    (by simp)

/-- C10: every `\r\n\r\n`-terminated header block with no Content-Length
entry — single- or multi-line, the block ending exactly where the first
delimiter starts — makes the framer read length `"0"`: it emits an empty
body, consumes exactly the header block plus delimiter, the empty body
fails to parse, and draining continues on the bytes after the
delimiter. -/
theorem C10_missing_content_length (h rest : List Char)
    (hdelim : findDelim (h ++ '\r' :: '\n' :: '\r' :: '\n' :: rest) =
      some h.length)
    (hmiss : lookupHeader (parseHeaders h) contentLengthKey = none) :
    drainStep (h ++ '\r' :: '\n' :: '\r' :: '\n' :: rest) = some ([], rest) ∧
      parseContent [] = none ∧
      drain (h ++ '\r' :: '\n' :: '\r' :: '\n' :: rest) =
        ([] :: (drain rest).1, (drain rest).2) := by
  have hcl : contentLenOf h = some 0 := by
    unfold contentLenOf
    rw [hmiss]
  have hstep : drainStep (h ++ '\r' :: '\n' :: '\r' :: '\n' :: rest) =
      some ([], rest) := by
    unfold drainStep
    rw [hdelim]
    dsimp only
    rw [List.take_append_of_le_length (le_refl _), List.take_length, hcl]
    dsimp only
    rw [if_pos (by simp)]
    have hdrop : (h ++ '\r' :: '\n' :: '\r' :: '\n' :: rest).drop
        (h.length + 4 + 0) = rest := by
      have h2 : h ++ '\r' :: '\n' :: '\r' :: '\n' :: rest =
          (h ++ ['\r', '\n', '\r', '\n']) ++ rest := by simp
      have h3 : h.length + 4 + 0 = (h ++ ['\r', '\n', '\r', '\n']).length := by
        simp
      rw [h2, h3, List.drop_left]
    rw [hdrop]
    simp
  exact ⟨hstep, rfl, drain_eq_some hstep⟩

/-- A two-line header block (lines separated by `\r\n`) carrying only
unrelated headers. -/
def c10hdr : List Char :=
  ['A', ':', ' ', 'b', '\r', '\n', 'F', 'o', 'o', ':', ' ', 'b', 'a', 'r']

theorem C10_witness :
    drainStep (c10hdr ++ '\r' :: '\n' :: '\r' :: '\n' :: ['x']) =
        some ([], ['x']) ∧
      parseContent [] = none ∧
      drain (c10hdr ++ '\r' :: '\n' :: '\r' :: '\n' :: ['x']) =
        ([] :: (drain ['x']).1, (drain ['x']).2) :=
  C10_missing_content_length c10hdr ['x'] (by decide) (by decide)

end VueTsgo
